import Mathlib

/-!
Verification development for the Gitter version-control storage engine
(content-addressable object store, tree builder, commit codec, staging
index, reference layer).  C++ std::string values are modelled as
`List Char`; the on-disk object store is modelled as an association list
from paths (lists of path components) to file contents.  Machine-integer
arithmetic (size_t / uint64_t wrap-around) is modelled on `Nat` with
explicit `% 2^64` where the C++ code can overflow.
-/

namespace Gitter

/-- Byte strings / C++ std::string values, modelled as lists of characters. -/
abbrev Str := List Char

/-- Fuel-based recursion for decimal printing (structural, so that the
kernel can evaluate it; any fuel above the value itself suffices). -/
def natToDecGo : Nat → Nat → Str
  | 0, _ => []
  | fuel + 1, n =>
    if n < 10 then [Char.ofNat (48 + n)]
    else natToDecGo fuel (n / 10) ++ [Char.ofNat (48 + n % 10)]

/-- Model of std::to_string for unsigned integers: decimal digits, no sign. -/
def natToDec (n : Nat) : Str := natToDecGo (n + 1) n

/-- Model of operator<< for int64_t: optional minus sign then decimal digits. -/
def intToDec (i : Int) : Str :=
  if i < 0 then '-' :: natToDec i.natAbs else natToDec i.natAbs

/-- Model of C++ size_t subtraction `a - b`, which wraps modulo 2^64. -/
def cppSub (a b : Nat) : Nat := (a + (2 ^ 64 - b % 2 ^ 64)) % 2 ^ 64

/-- A filesystem path, as the list of its components. -/
abbrev FPath := List Str

/-- The filesystem (or the object database) as an association list from
paths to file contents.  The most recently inserted binding wins. -/
abbrev FS := List (FPath × Str)

/-- Look up the contents of a file. -/
def fsFind (fs : FS) (p : FPath) : Option Str :=
  match fs with
  | [] => none
  | (q, v) :: rest => if q = p then some v else fsFind rest p

/-- Create or overwrite a file. -/
def fsInsert (p : FPath) (v : Str) (fs : FS) : FS := (p, v) :: fs

/-- Remove a file (model of fs::remove). -/
def fsRemove (p : FPath) (fs : FS) : FS := fs.filter (fun pv => pv.1 ≠ p)

/-- The hashing strategy held by ObjectStore (an IHasher in the C++ code),
restricted to what the store uses: hashing a byte string to a lowercase
hex identifier.  The default SHA-1 hasher always produces 40 hex
characters (20-byte digest, two hex characters per byte). -/
structure HasherM where
  hashHex : Str → Str
  len40 : ∀ b, (hashHex b).length = 40

/-- The zlib deflate/inflate pair used by ObjectStore.  zlib is an external
library, so it is kept abstract: a compression function, a decompression
function and the inverse property that inflate undoes deflate. -/
structure Codec where
  comp : Str → Str
  decomp : Str → Str
  inv : ∀ x, decomp (comp x) = x
  compNe : ∀ x, x ≠ [] → comp x ≠ []

/-- The identity codec: a concrete Codec instance used for evaluation. -/
def idCodec : Codec := ⟨fun x => x, fun x => x, fun _ => rfl, fun _ h => h⟩

/-- Errors thrown by the core (std::runtime_error and friends), carrying
their message. -/
abbrev GRes (α : Type) := Except Str α

/-- Model of ObjectStore::objectsDir: `<root>/.gitter/objects`.  The
repository root is left implicit; paths are relative to it. -/
def objectsDir : FPath := [".gitter".toList, "objects".toList]

/-- Model of Constants::OBJECT_DIR_LENGTH. -/
def OBJECT_DIR_LENGTH : Nat := 2

/-- Model of Constants::SHA1_HEX_LENGTH. -/
def SHA1_HEX_LENGTH : Nat := 40

/-- Model of ObjectStore::getObjectPath: split the hash into a 2-character
directory and the remaining characters; throws when the hash is shorter
than 3 characters. -/
def getObjectPath (hash : Str) : GRes FPath :=
  if hash.length < OBJECT_DIR_LENGTH + 1 then
    Except.error ("Invalid hash length: ".toList ++ hash)
  else
    Except.ok (objectsDir ++ [hash.take OBJECT_DIR_LENGTH, hash.drop OBJECT_DIR_LENGTH])

/-- The typed, length-prefixed object layout `"<type> <byte-length>\0<content>"`
shared by writeBlob / writeTree / writeCommit. -/
def fullObjectOf (ty : Str) (content : Str) : Str :=
  ty ++ [' '] ++ natToDec content.length ++ ['\x00'] ++ content

/-- Model of ObjectStore::writeBlob / writeTree / writeCommit, which differ
only in the type string: hash the full header+content, and only when no
object exists at the derived path, compress and write it; the identifier
is returned either way. -/
def writeObject (H : HasherM) (C : Codec) (ty : Str) (fs : FS) (content : Str) :
    GRes (Str × FS) :=
  match getObjectPath (H.hashHex (fullObjectOf ty content)) with
  | Except.error e => Except.error e
  | Except.ok objPath =>
    if fsFind fs objPath = none then
      Except.ok (H.hashHex (fullObjectOf ty content),
                 fsInsert objPath (C.comp (fullObjectOf ty content)) fs)
    else
      Except.ok (H.hashHex (fullObjectOf ty content), fs)

/-- Model of ObjectStore::writeBlob. -/
def writeBlob (H : HasherM) (C : Codec) (fs : FS) (content : Str) : GRes (Str × FS) :=
  writeObject H C "blob".toList fs content

/-- Model of ObjectStore::writeTree. -/
def writeTree (H : HasherM) (C : Codec) (fs : FS) (content : Str) : GRes (Str × FS) :=
  writeObject H C "tree".toList fs content

/-- Model of ObjectStore::writeCommit. -/
def writeCommit (H : HasherM) (C : Codec) (fs : FS) (content : Str) : GRes (Str × FS) :=
  writeObject H C "commit".toList fs content

/-- Model of ObjectStore::readObject: locate the object file by identifier,
fail when it is missing or empty, and decompress it. -/
def readObject (C : Codec) (fs : FS) (hash : Str) : GRes Str :=
  match getObjectPath hash with
  | Except.error e => Except.error e
  | Except.ok objPath =>
    match fsFind fs objPath with
    | none => Except.error ("Object not found: ".toList ++ hash)
    | some compressed =>
      if compressed = [] then Except.error ("Object file is empty: ".toList ++ hash)
      else Except.ok (C.decomp compressed)

/-- Model of std::string::find(c) followed by the substr(0, pos) /
substr(pos+1) split used by the readers: the part before the first
occurrence of `c`, and the part after it. -/
def splitAtFirst (c : Char) (s : Str) : Str × Str :=
  (s.takeWhile (fun d => d ≠ c), (s.dropWhile (fun d => d ≠ c)).drop 1)

/-- Model of ObjectStore::readBlob: read and decompress, split at the first
NUL, check the `blob ` header, and return the content after the header. -/
def readBlob (C : Codec) (fs : FS) (hash : Str) : GRes Str :=
  match readObject C fs hash with
  | Except.error e => Except.error e
  | Except.ok fullObject =>
    if ('\x00' ∈ fullObject) then
      if "blob ".toList.isPrefixOf (splitAtFirst '\x00' fullObject).1 then
        Except.ok (splitAtFirst '\x00' fullObject).2
      else
        Except.error "Not a blob object".toList
    else
      Except.error "Invalid blob object format".toList

/-- Full object bytes of a blob with the given content. -/
def blobFull (content : Str) : Str := fullObjectOf "blob".toList content

/-- The identifier writeBlob computes for a given content. -/
def blobHash (H : HasherM) (content : Str) : Str := H.hashHex (blobFull content)

/-- The on-disk path of the blob object for a given content. -/
def blobPath (H : HasherM) (content : Str) : FPath :=
  objectsDir ++ [(blobHash H content).take OBJECT_DIR_LENGTH,
                 (blobHash H content).drop OBJECT_DIR_LENGTH]

/-- Model of util/HasherFactory.cpp: the two supported hash algorithms. -/
inductive HashAlgo
  | sha1
  | sha256
deriving DecidableEq

/-- Digest sizes of the two hashers (Sha1Hasher::digestSize and
Sha256Hasher::digestSize). -/
def digestSize : HashAlgo → Nat
  | .sha1 => 20
  | .sha256 => 32

/-- Model of HasherFactory::createDefault: SHA-1 for on-disk compatibility. -/
def createDefault : HashAlgo := .sha1

/-- Model of HasherFactory::create: select by name, falling back to the
default for any unrecognized algorithm name. -/
def hasherFactoryCreate (algorithm : Str) : HashAlgo :=
  if algorithm = "sha1".toList then .sha1
  else if algorithm = "sha256".toList then .sha256
  else createDefault

/-- A trivial 40-hex-character hasher used to instantiate witnesses. -/
def H0 : HasherM := ⟨fun _ => List.replicate 40 'a', fun _ => by simp⟩

/-! ### RefLayer: Repository branch operations (core/Repository.cpp) -/

/-- Injected filesystem-failure environment for the ref-layer writers:
whether create_directories, the ofstream open, and the stream write/flush
fail.  All-false models the normal successful run. -/
structure RefEnv where
  mkdirFail : Bool
  openFail : Bool
  writeFail : Bool

/-- The environment in which every filesystem step succeeds. -/
def okRefEnv : RefEnv := ⟨false, false, false⟩

/-- Path of a branch ref file: `.gitter/refs/heads/<branch>`. -/
def refsHeadsPath (branchName : Str) : FPath :=
  [".gitter".toList, "refs".toList, "heads".toList, branchName]

/-- Path of the HEAD file: `.gitter/HEAD`. -/
def headPath : FPath := [".gitter".toList, "HEAD".toList]

/-- Model of Repository::branchExists: the ref file exists. -/
def branchExists (fs : FS) (branchName : Str) : Bool :=
  (fsFind fs (refsHeadsPath branchName)).isSome

/-- Model of Repository::createBranch: create the parent directories, open
the ref file, and write `<commitHash>\n` to it.  There is no check whether
the branch already exists; an existing ref file is simply overwritten.
Returns the error (if any) together with the resulting filesystem. -/
def createBranch (fs : FS) (env : RefEnv) (branchName commitHash : Str) :
    GRes Unit × FS :=
  if env.mkdirFail then
    (Except.error "Failed to create branch directory".toList, fs)
  else if env.openFail then
    (Except.error "Failed to create branch reference".toList, fs)
  else if env.writeFail then
    (Except.error "Failed to write branch reference".toList,
     fsInsert (refsHeadsPath branchName) (commitHash ++ ['\n']) fs)
  else
    (Except.ok (), fsInsert (refsHeadsPath branchName) (commitHash ++ ['\n']) fs)

/-- Model of Repository::switchToBranch: unconditionally rewrite HEAD to
`ref: refs/heads/<branch>\n`; no check that the branch exists. -/
def switchToBranch (fs : FS) (env : RefEnv) (branchName : Str) :
    GRes Unit × FS :=
  if env.openFail then
    (Except.error "Failed to update HEAD".toList, fs)
  else if env.writeFail then
    (Except.error "Failed to write HEAD".toList,
     fsInsert headPath ("ref: refs/heads/".toList ++ branchName ++ ['\n']) fs)
  else
    (Except.ok (),
     fsInsert headPath ("ref: refs/heads/".toList ++ branchName ++ ['\n']) fs)

/-! ### StagingIndex: core/Index.cpp -/

/-- A staging-index entry (core/Index.hpp): path, blob hash, and the
snapshot metadata fields. -/
structure IndexEntry where
  path : Str
  hashHex : Str
  sizeBytes : Nat
  mtimeNs : Nat
  mode : Nat
  ctimeNs : Nat
deriving DecidableEq

/-- Model of std::isspace in the default locale. -/
def isSpaceCh (c : Char) : Bool :=
  c = ' ' ∨ c = '\t' ∨ c = '\n' ∨ c = '\x0b' ∨ c = '\x0c' ∨ c = '\x0d'

/-- Model of std::isdigit. -/
def isDigitCh (c : Char) : Bool := '0' ≤ c ∧ c ≤ '9'

/-- Model of std::isxdigit. -/
def isXdigitCh (c : Char) : Bool :=
  ('0' ≤ c ∧ c ≤ '9') ∨ ('a' ≤ c ∧ c ≤ 'f') ∨ ('A' ≤ c ∧ c ≤ 'F')

/-- Model of the static isValidHash in Index.cpp: exactly 40 hex chars. -/
def isValidHash (hash : Str) : Bool :=
  hash.length = SHA1_HEX_LENGTH && hash.all isXdigitCh

/-- Numeric value of a run of decimal digits. -/
def digitsVal (ds : Str) : Nat :=
  ds.foldl (fun acc c => acc * 10 + (c.toNat - 48)) 0

/-- Model of std::stoull / std::stoul (unsigned long is 64-bit here): skip
leading whitespace, accept an optional sign ('-' wraps modulo 2^64), then
consume decimal digits; no digits (invalid_argument) or a value above
2^64-1 (out_of_range) throws, modelled as `none`. -/
def parseULL (s : Str) : Option Nat :=
  let s1 := s.dropWhile isSpaceCh
  let signAndRest : Bool × Str :=
    match s1 with
    | '-' :: r => (true, r)
    | '+' :: r => (false, r)
    | r => (false, r)
  let ds := signAndRest.2.takeWhile isDigitCh
  if ds = [] then none
  else if digitsVal ds ≥ 2 ^ 64 then none
  else if signAndRest.1 then some ((2 ^ 64 - digitsVal ds) % 2 ^ 64)
  else some (digitsVal ds)

/-- Split a string at every occurrence of a delimiter character (model of
repeated std::getline with a delimiter over a stringstream, except that
getline drops a trailing empty field; callers use getD with default ""
so the difference is immaterial for absent fields). -/
def splitOnChar (c : Char) : Str → List Str
  | [] => [[]]
  | a :: rest =>
    if a = c then [] :: splitOnChar c rest
    else
      match splitOnChar c rest with
      | [] => [[a]]
      | g :: gs => (a :: g) :: gs

/-- Absolute path test (leading '/'). -/
def isAbsPath (p : Str) : Bool :=
  match p with
  | '/' :: _ => true
  | _ => false

/-- Path components, with empty components (repeated slashes) removed. -/
def segsOf (p : Str) : List Str := (splitOnChar '/' p).filter (fun s => s ≠ [])

/-- Lexical normalization over components, processing "." and ".." (the
core of fs::path::lexically_normal): stack holds the output in reverse. -/
def normStack (stack : List Str) (segs : List Str) (abs : Bool) : List Str :=
  match segs with
  | [] => stack.reverse
  | s :: rest =>
    if s = ".".toList then normStack stack rest abs
    else if s = "..".toList then
      match stack with
      | t :: st =>
        if t = "..".toList then normStack (s :: t :: st) rest abs
        else normStack st rest abs
      | [] => if abs then normStack [] rest abs else normStack [s] rest abs
    else normStack (s :: stack) rest abs

/-- Join path components with '/'. -/
def joinSegs : List Str → Str
  | [] => []
  | [s] => s
  | s :: rest => s ++ '/' :: joinSegs rest

/-- Model of the static normalizePath in Index.cpp:
fs::path(path).lexically_normal().generic_string(), then strip a leading
"./" (trailing-slash subtleties of lexically_normal are not modelled; the
claims only constrain distinctness of normalized paths). -/
def normalizePath (path : Str) : Str :=
  if path = [] then []
  else
    let abs := isAbsPath path
    let j := joinSegs (normStack [] (segsOf path) abs)
    let generic := if abs then '/' :: j else j
    let normalized := if generic = [] then ".".toList else generic
    if normalized.take 2 = "./".toList then normalized.drop 2 else normalized

/-- Model of the per-line record parse inside Index::load: split the line
on tabs into path, hash, size, mtime, mode, ctime; reject the record when
the hash is not a valid 40-hex string or any present numeric field fails
to parse (the mode is cast to uint32_t). -/
def parseIndexLine (line : Str) : Option (Str × IndexEntry) :=
  let parts := splitOnChar '\t' line
  let path := parts.getD 0 []
  let hash := parts.getD 1 []
  let sizeStr := parts.getD 2 []
  let mtimeStr := parts.getD 3 []
  let modeStr := parts.getD 4 []
  let ctimeStr := parts.getD 5 []
  if isValidHash hash = false then none
  else
    match (if sizeStr = [] then some 0 else parseULL sizeStr),
          (if mtimeStr = [] then some 0 else parseULL mtimeStr),
          (if modeStr = [] then some 0 else (parseULL modeStr).map (· % 2 ^ 32)),
          (if ctimeStr = [] then some 0 else parseULL ctimeStr) with
    | some sz, some mt, some md, some ct =>
      some (normalizePath path,
            ⟨normalizePath path, hash, sz, mt, md, ct⟩)
    | _, _, _, _ => none

/-- Insert-or-replace into the path-keyed entry map (unordered_map
operator[] assignment). -/
def mapInsert (k : Str) (e : IndexEntry) :
    List (Str × IndexEntry) → List (Str × IndexEntry)
  | [] => [(k, e)]
  | (k', e') :: rest =>
    if k' = k then (k, e) :: rest else (k', e') :: mapInsert k e rest

/-- Strip a trailing carriage return from a line, as Index::load does. -/
def stripCR (line : Str) : Str :=
  if line ≠ [] ∧ line.getLast? = some '\r' then line.dropLast else line

/-- The line loop of Index::load: skip blank lines, skip records that fail
to parse, insert the rest keyed by normalized path. -/
def loadGo : List Str → List (Str × IndexEntry) → List (Str × IndexEntry)
  | [], m => m
  | line :: rest, m =>
    if stripCR line = [] then loadGo rest m
    else
      match parseIndexLine (stripCR line) with
      | none => loadGo rest m
      | some ke => loadGo rest (mapInsert ke.1 ke.2 m)

/-- Model of Index::load over the lines of the index file. -/
def loadLines (lines : List Str) : List (Str × IndexEntry) := loadGo lines []

/-- The key a line would be stored under, if it parses. -/
def lineKey (line : Str) : Option Str :=
  (parseIndexLine (stripCR line)).map Prod.fst

/-- Path of the index file: `.gitter/index`. -/
def indexFilePath : FPath := [".gitter".toList, "index".toList]

/-- Path of the temporary index file: `.gitter/index.tmp`. -/
def tempIndexPath : FPath := [".gitter".toList, "index.tmp".toList]

/-- Serialization of one index entry as a TSV line (Index::save). -/
def serializeIndexEntry (e : IndexEntry) : Str :=
  e.path ++ '\t' :: e.hashHex ++ '\t' :: natToDec e.sizeBytes ++
    '\t' :: natToDec e.mtimeNs ++ '\t' :: natToDec e.mode ++
    '\t' :: natToDec e.ctimeNs ++ ['\n']

/-- Serialization of the whole entry map (Index::save's write loop). -/
def serializeIndex (entries : List (Str × IndexEntry)) : Str :=
  (entries.map (fun ke => serializeIndexEntry ke.2)).flatten

/-- The record a well-formed index line parses to (with a dummy default,
used only when the line does not parse). -/
def parsedRecord (l : Str) : Str × IndexEntry :=
  (parseIndexLine (stripCR l)).getD ([], ⟨[], [], 0, 0, 0, 0⟩)

/-- Injected filesystem-failure environment for Index::save. -/
structure SaveEnv where
  mkdirFail : Bool
  openFail : Bool
  writeFail : Bool
  renameFail : Bool

/-- Model of Index::save: write all entries to `.gitter/index.tmp` (the
ofstream open creates/truncates the temp file), then atomically rename it
over `.gitter/index`.  On a write or rename failure the temp file is
removed and `false` is returned; on mkdir/open failure nothing was
created.  Returns the success flag and the resulting filesystem. -/
def indexSave (fs : FS) (env : SaveEnv) (entries : List (Str × IndexEntry)) :
    Bool × FS :=
  if env.mkdirFail then (false, fs)
  else if env.openFail then (false, fs)
  else if env.writeFail then
    (false, fsRemove tempIndexPath
              (fsInsert tempIndexPath (serializeIndex entries) fs))
  else if env.renameFail then
    (false, fsRemove tempIndexPath
              (fsInsert tempIndexPath (serializeIndex entries) fs))
  else
    (true, fsInsert indexFilePath (serializeIndex entries)
             (fsRemove tempIndexPath
               (fsInsert tempIndexPath (serializeIndex entries) fs)))

/-! ### CommitCodec: ObjectStore::readCommit and the commit text layout -/

/-- A parsed commit record (core/CommitObject.hpp, without the object's own
hash, which readCommit copies from its argument). -/
structure CommitRec where
  treeHash : Str
  parentHashes : List Str
  authorName : Str
  authorEmail : Str
  authorTimestamp : Int
  authorTimezone : Str
  committerName : Str
  committerEmail : Str
  committerTimestamp : Int
  committerTimezone : Str
  message : Str
deriving DecidableEq

/-- The default-initialized CommitObject. -/
def emptyCommitRec : CommitRec := ⟨[], [], [], [], 0, [], [], [], 0, [], []⟩

/-- Model of std::string::find(char): index of the first occurrence. -/
def findCh (c : Char) : Str → Option Nat
  | [] => none
  | a :: rest => if a = c then some 0 else (findCh c rest).map (· + 1)

/-- Space or tab (the character set of the trim in readCommit). -/
def isHT (c : Char) : Bool := c = ' ' ∨ c = '\t'

/-- Model of the find_first_not_of/find_last_not_of " \t" trim applied to
tree/parent hash values in readCommit. -/
def trimWs (s : Str) : Str := ((s.dropWhile isHT).reverse.dropWhile isHT).reverse

/-- Model of the lines produced by repeated std::getline over a
stringstream: split on newline, with the final empty piece dropped when
the content ends with a newline, and no line at all for empty content. -/
def getlineLines (s : Str) : List Str :=
  if s = [] then []
  else if s.getLast? = some '\n' then (splitOnChar '\n' s).dropLast
  else splitOnChar '\n' s

/-- Model of istream extraction into int64_t: skip whitespace, optional
sign, decimal digits; returns (success, value with C++ failure semantics
(0 when no digits, clamped on overflow), remaining characters). -/
def extractInt64 (s : Str) : Bool × Int × Str :=
  let s1 := s.dropWhile isSpaceCh
  let neg := s1.take 1 = ['-']
  let s2 := if s1.take 1 = ['-'] ∨ s1.take 1 = ['+'] then s1.drop 1 else s1
  let ds := s2.takeWhile isDigitCh
  let rest := s2.dropWhile isDigitCh
  if ds = [] then (false, 0, s)
  else
    let v : Int := if neg then -(digitsVal ds : Int) else (digitsVal ds : Int)
    if v < -(2 ^ 63) then (false, -(2 ^ 63), rest)
    else if v > 2 ^ 63 - 1 then (false, 2 ^ 63 - 1, rest)
    else (true, v, rest)

/-- Model of istream extraction into std::string: skip whitespace, then
take the maximal run of non-whitespace characters. -/
def extractToken (s : Str) : Str × Str :=
  let s1 := s.dropWhile isSpaceCh
  (s1.takeWhile (fun c => !isSpaceCh c), s1.dropWhile (fun c => !isSpaceCh c))

/-- Model of the author/committer line parse in readCommit: locate the
`<...>` email delimiters (silently skipping the line if either is
missing), split out the name and email, then read timestamp and timezone
from the text after `"> "`.  substr(emailEnd + 2) throws out_of_range when
that position lies past the end of the line. -/
def parsePerson (s : Str) : GRes (Option (Str × Str × Int × Str)) :=
  match findCh '<' s, findCh '>' s with
  | some emailStart, some emailEnd =>
    if emailEnd + 2 > s.length then
      Except.error "basic_string::substr out_of_range".toList
    else
      let name := s.take (cppSub emailStart 1)
      let email := (s.drop (emailStart + 1)).take (cppSub emailEnd (emailStart + 1))
      let e64 := extractInt64 (s.drop (emailEnd + 2))
      if e64.1 then
        Except.ok (some (name, email, e64.2.1, (extractToken e64.2.2).1))
      else
        Except.ok (some (name, email, e64.2.1, []))
  | _, _ => Except.ok none

/-- Model of one header-line dispatch step of readCommit: tree, parent,
author and committer headers are handled; anything else is ignored. -/
def applyHeaderLine (hash : Str) (c : CommitRec) (line : Str) : GRes CommitRec :=
  if "tree ".toList.isPrefixOf line then
    let hashPart := trimWs (line.drop 5)
    if hashPart.length ≥ SHA1_HEX_LENGTH then
      Except.ok { c with treeHash := hashPart.take SHA1_HEX_LENGTH }
    else
      Except.error ("Invalid tree hash length in commit: ".toList ++ hash)
  else if "parent ".toList.isPrefixOf line then
    let hashPart := trimWs (line.drop 7)
    if hashPart.length ≥ SHA1_HEX_LENGTH then
      Except.ok { c with parentHashes := c.parentHashes ++ [hashPart.take SHA1_HEX_LENGTH] }
    else
      Except.error ("Invalid parent hash length in commit: ".toList ++ hash)
  else if "author ".toList.isPrefixOf line then
    match parsePerson (line.drop 7) with
    | Except.error e => Except.error e
    | Except.ok none => Except.ok c
    | Except.ok (some nets) =>
      Except.ok { c with authorName := nets.1, authorEmail := nets.2.1,
                         authorTimestamp := nets.2.2.1, authorTimezone := nets.2.2.2 }
  else if "committer ".toList.isPrefixOf line then
    match parsePerson (line.drop 10) with
    | Except.error e => Except.error e
    | Except.ok none => Except.ok c
    | Except.ok (some nets) =>
      Except.ok { c with committerName := nets.1, committerEmail := nets.2.1,
                         committerTimestamp := nets.2.2.1, committerTimezone := nets.2.2.2 }
  else
    Except.ok c

/-- The line loop of readCommit: header lines until the first blank line,
then every remaining line is appended (with a newline) to the message. -/
def parseCommitLines (hash : Str) :
    List Str → Bool → Str → CommitRec → GRes CommitRec
  | [], _, msgAcc, c => Except.ok { c with message := msgAcc }
  | line :: rest, true, msgAcc, c =>
    parseCommitLines hash rest true (msgAcc ++ line ++ ['\n']) c
  | line :: rest, false, msgAcc, c =>
    if line = [] then parseCommitLines hash rest true msgAcc c
    else
      match applyHeaderLine hash c line with
      | Except.error e => Except.error e
      | Except.ok c2 => parseCommitLines hash rest false msgAcc c2

/-- Model of the commit body parse of ObjectStore::readCommit (the part
after the `commit <len>\0` header has been stripped and checked). -/
def parseCommitContent (hash : Str) (content : Str) : GRes CommitRec :=
  parseCommitLines hash (getlineLines content) false [] emptyCommitRec

/-- Model of ObjectStore::readCommit: read and decompress the object,
check the `commit ` header, and parse the body. -/
def readCommit (C : Codec) (fs : FS) (hash : Str) : GRes CommitRec :=
  match readObject C fs hash with
  | Except.error e => Except.error e
  | Except.ok fullObject =>
    if ('\x00' ∈ fullObject) then
      if "commit ".toList.isPrefixOf (splitAtFirst '\x00' fullObject).1 then
        parseCommitContent hash (splitAtFirst '\x00' fullObject).2
      else
        Except.error "Not a commit object".toList
    else
      Except.error "Invalid commit object format".toList

/-- The `<name> <<email>> <timestamp> <tz>` text of an author/committer
header value. -/
def personStrOf (name email : Str) (ts : Int) (tz : Str) : Str :=
  name ++ " <".toList ++ email ++ "> ".toList ++ intToDec ts ++ ' ' :: tz

/-- Modelled from the spec: the commit encoder of §4.4 for an arbitrary
record (`tree`, one `parent` per parent in order, `author`, `committer`,
a blank line, then the message written as given).  The repository only
contains the ≤1-parent instance of this encoder, inlined in
CommitCommand::execute; the general form needed by the round-trip claim
follows the spec's words and agrees with CommitCommand's layout. -/
def encodeCommit (r : CommitRec) : Str :=
  "tree ".toList ++ r.treeHash ++ ['\n'] ++
  (r.parentHashes.map (fun p => "parent ".toList ++ p ++ ['\n'])).flatten ++
  ("author ".toList ++
    personStrOf r.authorName r.authorEmail r.authorTimestamp r.authorTimezone ++
    ['\n']) ++
  ("committer ".toList ++
    personStrOf r.committerName r.committerEmail r.committerTimestamp
      r.committerTimezone ++
    ['\n']) ++
  '\n' :: r.message

/-- Hash-value well-formedness: exactly 40 hex characters. -/
def hashOkB (h : Str) : Bool := h.length = 40 && h.all isXdigitCh

/-- Well-formedness of the name/email/timezone fields of a person stamp:
no email delimiters or newlines inside the name, no closing delimiter or
newline inside the email, and a nonempty whitespace-free timezone token
(lengths bounded by size_t as in any real C++ string). -/
def personOkB (name email tz : Str) : Bool :=
  name.all (fun c => c ≠ '<' && c ≠ '>' && c ≠ '\n') &&
  email.all (fun c => c ≠ '>' && c ≠ '\n') &&
  (tz ≠ ([] : Str)) && tz.all (fun c => !isSpaceCh c) &&
  name.length < 2 ^ 32 && email.length < 2 ^ 32

/-- An int64-representable timestamp. -/
def tsOkB (t : Int) : Bool := -(2 ^ 63) ≤ t && t ≤ 2 ^ 63 - 1

/-- Well-formedness of a whole commit record: valid hashes, well-formed
person stamps, representable timestamps, and a message that ends with a
newline (the normalization CommitCommand applies before writing). -/
def wfRec (r : CommitRec) : Bool :=
  hashOkB r.treeHash &&
  r.parentHashes.all hashOkB &&
  personOkB r.authorName r.authorEmail r.authorTimezone &&
  tsOkB r.authorTimestamp &&
  personOkB r.committerName r.committerEmail r.committerTimezone &&
  tsOkB r.committerTimestamp &&
  (r.message ≠ ([] : Str)) && (r.message.getLast? = some '\n')

/-- Join lines back into text, appending a newline to each line (the
message reconstruction readCommit performs). -/
def joinLines (ls : List Str) : Str := (ls.map (fun l => l ++ ['\n'])).flatten

/-- Decidable equality of results, for evaluating parses on concrete
inputs. -/
instance {e a : Type} [DecidableEq e] [DecidableEq a] : DecidableEq (Except e a) :=
  fun x y =>
    match x, y with
    | Except.ok u, Except.ok v =>
      if h : u = v then isTrue (by rw [h]) else isFalse (by intro hh; cases hh; exact h rfl)
    | Except.error u, Except.error v =>
      if h : u = v then isTrue (by rw [h]) else isFalse (by intro hh; cases hh; exact h rfl)
    | Except.ok _, Except.error _ => isFalse (by intro hh; cases hh)
    | Except.error _, Except.ok _ => isFalse (by intro hh; cases hh)

/-- A concrete well-formed commit record with two parents and a
three-paragraph message (blank lines embedded), used by witnesses. -/
def exCommitRec : CommitRec :=
  ⟨List.replicate 40 'a', [List.replicate 40 'b', List.replicate 40 'c'],
   "Alice Smith".toList, "alice@example.com".toList, 1700000000, "+0530".toList,
   "Bob".toList, "bob@example.com".toList, -5, "-0800".toList,
   "First line\n\nSecond paragraph\nmore\n\nThird\n".toList⟩

/-! ### TreeBuilder: core/TreeBuilder.cpp -/

/-- A tree entry (core/TreeBuilder.hpp). -/
structure TreeEntry where
  mode : Nat
  name : Str
  hashHex : Str
  isTree : Bool
deriving DecidableEq

/-- The staging-index entry map iterated by TreeBuilder (std::unordered_map
modelled as an association list; iteration order is list order, which the
order-independence claim quantifies over). -/
abbrev Entries := List (Str × IndexEntry)

/-- Value of one hex digit (stoi base 16; non-hex characters, on which
stoi would throw, default to 0 — index entries hold validated hex). -/
def hexVal (c : Char) : Nat :=
  if '0' ≤ c ∧ c ≤ '9' then c.toNat - 48
  else if 'a' ≤ c ∧ c ≤ 'f' then c.toNat - 87
  else if 'A' ≤ c ∧ c ≤ 'F' then c.toNat - 55
  else 0

/-- Model of the static hexToBytes in TreeBuilder.cpp: two hex characters
per output byte; a trailing odd character yields its own value, as stoi
on the one-character substring does. -/
def hexToBytes : Str → Str
  | c1 :: c2 :: rest => Char.ofNat (hexVal c1 * 16 + hexVal c2) :: hexToBytes rest
  | [c] => [Char.ofNat (hexVal c)]
  | [] => []

/-- Serialization of one tree entry: `<decimal-mode> <name>\0<binary-hash>`
(buildTree's write loop; the mode is printed with std::to_string, so the
directory mode 040000 prints as its decimal value 16384). -/
def treeEntryBytes (e : TreeEntry) : Str :=
  natToDec e.mode ++ ' ' :: e.name ++ '\x00' :: hexToBytes e.hashHex

/-- Serialization of a child list in order. -/
def serializeTreeEntries (children : List TreeEntry) : Str :=
  (children.map treeEntryBytes).flatten

/-- The comparator `a.name < b.name` of the std::sort call: lexicographic
comparison by character value, shorter-prefix-first. -/
def strLtB : Str → Str → Bool
  | _, [] => false
  | [], _ :: _ => true
  | a :: as, b :: bs =>
    if a.toNat < b.toNat then true
    else if b.toNat < a.toNat then false
    else strLtB as bs

/-- Model of the std::sort call as insertion sort with the name
comparator (any comparator-consistent order agrees on the distinct-name
child lists the claims constrain). -/
def insertByName (e : TreeEntry) : List TreeEntry → List TreeEntry
  | [] => [e]
  | x :: xs => if strLtB e.name x.name then e :: x :: xs else x :: insertByName e xs

/-- Sort children by name ascending (the Git requirement in buildTree). -/
def sortByName : List TreeEntry → List TreeEntry
  | [] => []
  | x :: xs => insertByName x (sortByName xs)

/-- The identifier ObjectStore::writeTree returns, as a pure function of
the content: the store write never influences the returned hash. -/
def writeTreeId (H : HasherM) (content : Str) : Str :=
  H.hashHex (fullObjectOf "tree".toList content)

/-- The directory prefix `"<dir>/"` matched in getDirectChildren. -/
def pfxOf (dirPath : Str) : Str := if dirPath = [] then [] else dirPath ++ ['/']

/-- The path relative to the current directory. -/
def relPathOf (dirPath path : Str) : Str :=
  if dirPath = [] then path else path.drop (pfxOf dirPath).length

/-- The iteration loop of TreeBuilder::getDirectChildren, parametrized by
the function `f` computing the sub-tree hash of a subdirectory path (the
recursive buildTree call, abstracted so the loop is structurally
recursive): skip entries outside the directory, emit a file child for a
direct child, and recurse once per distinct subdirectory via the seen
set, dropping subdirectories whose tree hash comes back empty. -/
def gdcGo (f : Str → Option Str) (dirPath : Str) :
    Entries → List Str → List TreeEntry → Option (List TreeEntry)
  | [], _, children => some children
  | (path, entry) :: rest, seen, children =>
    if dirPath ≠ [] ∧ ¬((pfxOf dirPath).isPrefixOf path) then
      gdcGo f dirPath rest seen children
    else
      if '/' ∈ relPathOf dirPath path then
        let subdirName := (relPathOf dirPath path).takeWhile (fun c => c ≠ '/')
        if subdirName ∈ seen then gdcGo f dirPath rest seen children
        else
          match f (pfxOf dirPath ++ subdirName) with
          | none => none
          | some treeHash =>
            if treeHash = [] then
              gdcGo f dirPath rest (subdirName :: seen) children
            else
              gdcGo f dirPath rest (subdirName :: seen)
                (children ++ [⟨16384, subdirName, treeHash, true⟩])
      else
        gdcGo f dirPath rest seen
          (children ++ [⟨entry.mode, relPathOf dirPath path, entry.hashHex, false⟩])

/-- Model of TreeBuilder::buildTree, with a recursion-depth fuel: the C++
recursion terminates because every recursive call's dirPath is a strictly
longer prefix of some entry path; fuel above the total path length makes
the model agree, and exhausted fuel returns none. -/
def buildTreeF (H : HasherM) : Nat → Str → Entries → Option Str
  | 0, _, _ => none
  | fuel + 1, dirPath, entries =>
    match gdcGo (fun sub => buildTreeF H fuel sub entries) dirPath entries [] [] with
    | none => none
    | some children =>
      if children = [] then some []
      else some (writeTreeId H (serializeTreeEntries (sortByName children)))

/-- Fuel for buildFromIndex, permutation-invariant in the entries. -/
def fuelOf (entries : Entries) : Nat :=
  (entries.map (fun pe => pe.1.length)).sum + 1

/-- Model of TreeBuilder::buildFromIndex: an empty index yields the empty
identifier, otherwise build the root tree (empty dirPath). -/
def buildFromIndex (H : HasherM) (entries : Entries) : Option Str :=
  if entries = [] then some []
  else buildTreeF H (fuelOf entries) [] entries

/-- Classification of one entry at one directory level: the file child it
contributes, if it is a direct child (mirrors the gdcGo conditions). -/
def fileOf (dirPath : Str) (pe : Str × IndexEntry) : Option TreeEntry :=
  if dirPath ≠ [] ∧ ¬((pfxOf dirPath).isPrefixOf pe.1) then none
  else if '/' ∈ relPathOf dirPath pe.1 then none
  else some ⟨pe.2.mode, relPathOf dirPath pe.1, pe.2.hashHex, false⟩

/-- Classification of one entry at one directory level: the subdirectory
name it falls under, if any (mirrors the gdcGo conditions). -/
def subdirOf (dirPath : Str) (pe : Str × IndexEntry) : Option Str :=
  if dirPath ≠ [] ∧ ¬((pfxOf dirPath).isPrefixOf pe.1) then none
  else if '/' ∈ relPathOf dirPath pe.1 then
    some ((relPathOf dirPath pe.1).takeWhile (fun c => c ≠ '/'))
  else none

/-- First-occurrence list of subdirectory names not already seen (the
order in which gdcGo recurses into subdirectories). -/
def newSubdirs (dirPath : Str) : Entries → List Str → List Str
  | [], _ => []
  | pe :: rest, seen =>
    match subdirOf dirPath pe with
    | none => newSubdirs dirPath rest seen
    | some sd =>
      if sd ∈ seen then newSubdirs dirPath rest seen
      else sd :: newSubdirs dirPath rest (sd :: seen)

/-- The directory child contributed by one subdirectory name (none when
the subtree hash is empty or the hash function fails). -/
def dirChild (f : Str → Option Str) (pfx n : Str) : Option TreeEntry :=
  match f (pfx ++ n) with
  | none => none
  | some h => if h = [] then none else some ⟨16384, n, h, true⟩

/-- No entry path is a strict directory-prefix of another (no key `p` with
another key `p ++ "/" ++ ...`): the staging-index well-formedness the
order-independence claim relies on. -/
def NoDirPrefixB (keys : List Str) : Bool :=
  keys.all (fun p => keys.all (fun q => !((p ++ ['/']).isPrefixOf q)))

/-- A concrete staged entry for evaluation: regular file mode 100644. -/
def exEntry (p : Str) (h : Char) : Str × IndexEntry :=
  (p, ⟨p, List.replicate 40 h, 1, 2, 33188, 3⟩)

/-- A concrete three-entry index (one top-level file, two files in one
subdirectory). -/
def exEntriesA : Entries :=
  [exEntry "a.txt".toList 'b', exEntry "dir/b.txt".toList 'c',
   exEntry "dir/c.txt".toList 'd']

/-- The same index with the entries listed in a different order. -/
def exEntriesB : Entries :=
  [exEntry "dir/c.txt".toList 'd', exEntry "a.txt".toList 'b',
   exEntry "dir/b.txt".toList 'c']

/-! ### Supporting lemmas about the object layout -/

theorem nul_not_mem_natToDecGo (fuel : Nat) : ∀ n, '\x00' ∉ natToDecGo fuel n := by
  induction fuel with
  | zero => intro n h; cases h
  | succ f ih =>
    intro n
    have hdig : ∀ k, k < 10 → ('\x00' : Char) ≠ Char.ofNat (48 + k) := by decide
    unfold natToDecGo
    split
    · intro hmem
      simp only [List.mem_singleton] at hmem
      exact hdig n ‹n < 10› hmem
    · intro hmem
      rcases List.mem_append.mp hmem with h1 | h2
      · exact ih (n / 10) h1
      · simp only [List.mem_singleton] at h2
        exact hdig (n % 10) (Nat.mod_lt n (by decide)) h2

theorem nul_not_mem_natToDec (n : Nat) : '\x00' ∉ natToDec n :=
  nul_not_mem_natToDecGo _ _

theorem takeWhile_append_of_neg (p : Char → Bool) (h t : Str) (x : Char)
    (hh : ∀ c ∈ h, p c = true) (hx : p x = false) :
    (h ++ x :: t).takeWhile p = h := by
  induction h with
  | nil => simp [List.takeWhile_cons, hx]
  | cons a as ih =>
    have ha : p a = true := hh a (List.mem_cons_self _ _)
    simp only [List.cons_append, List.takeWhile_cons, ha, if_true]
    exact congrArg (a :: ·) (ih fun c hc => hh c (List.mem_cons_of_mem _ hc))

theorem dropWhile_append_of_neg (p : Char → Bool) (h t : Str) (x : Char)
    (hh : ∀ c ∈ h, p c = true) (hx : p x = false) :
    (h ++ x :: t).dropWhile p = x :: t := by
  induction h with
  | nil => simp [List.dropWhile_cons, hx]
  | cons a as ih =>
    have ha : p a = true := hh a (List.mem_cons_self _ _)
    simp only [List.cons_append, List.dropWhile_cons, ha, if_true]
    exact ih fun c hc => hh c (List.mem_cons_of_mem _ hc)

theorem splitAtFirst_nul (h t : Str) (hh : '\x00' ∉ h) :
    splitAtFirst '\x00' (h ++ '\x00' :: t) = (h, t) := by
  have hp : ∀ c ∈ h, (decide (c ≠ '\x00') : Bool) = true := by
    intro c hc
    simp only [decide_eq_true_eq]
    exact fun he => hh (he ▸ hc)
  have hx : (decide (('\x00' : Char) ≠ '\x00') : Bool) = false := by decide
  unfold splitAtFirst
  rw [takeWhile_append_of_neg _ h t _ hp hx, dropWhile_append_of_neg _ h t _ hp hx]
  simp

theorem nul_not_mem_blobHeader (content : Str) :
    '\x00' ∉ "blob ".toList ++ [' '] ++ natToDec content.length := by
  intro hmem
  rcases List.mem_append.mp hmem with h1 | h2
  · revert h1; decide
  · exact nul_not_mem_natToDec _ h2

theorem blobFull_eq (content : Str) :
    blobFull content =
      ("blob ".toList ++ natToDec content.length) ++ '\x00' :: content := by
  simp [blobFull, fullObjectOf]

theorem nul_not_mem_blobHeaderCore (content : Str) :
    '\x00' ∉ "blob ".toList ++ natToDec content.length := by
  intro hmem
  rcases List.mem_append.mp hmem with h1 | h2
  · revert h1; decide
  · exact nul_not_mem_natToDec _ h2

theorem isPrefixOf_append (l t : Str) : l.isPrefixOf (l ++ t) = true := by
  induction l with
  | nil => simp [List.isPrefixOf]
  | cons a as ih => simp [List.isPrefixOf, ih]

theorem blobPath_getObjectPath (H : HasherM) (b : Str) :
    getObjectPath (blobHash H b) = Except.ok (blobPath H b) := by
  unfold getObjectPath blobPath
  have hlen : (blobHash H b).length = 40 := H.len40 _
  rw [hlen]
  simp [OBJECT_DIR_LENGTH]

/-- Reading back the blob object bytes succeeds and recovers the content. -/
theorem readBlob_of_find (C : Codec) (fs : FS) (H : HasherM) (b : Str)
    (hfind : fsFind fs (blobPath H b) = some (C.comp (blobFull b))) :
    readBlob C fs (blobHash H b) = Except.ok b := by
  have hne : C.comp (blobFull b) ≠ [] := by
    apply C.compNe
    rw [blobFull_eq]
    simp
  have hobj : readObject C fs (blobHash H b) = Except.ok (blobFull b) := by
    unfold readObject
    rw [blobPath_getObjectPath]
    dsimp only
    rw [hfind]
    dsimp only
    rw [if_neg hne, C.inv]
  unfold readBlob
  rw [hobj]
  dsimp only
  have hmem : '\x00' ∈ blobFull b := by
    rw [blobFull_eq]; simp
  rw [if_pos hmem]
  have hsplit : splitAtFirst '\x00' (blobFull b) =
      ("blob ".toList ++ natToDec b.length, b) := by
    rw [blobFull_eq]
    exact splitAtFirst_nul _ _ (nul_not_mem_blobHeaderCore b)
  rw [hsplit]
  simp [isPrefixOf_append]

/-! ### C1 and C2: blob round-trip and write-if-absent idempotence -/

/-- Characterization of writeBlob as a conditional store update. -/
theorem writeBlob_eq (H : HasherM) (C : Codec) (fs : FS) (b : Str) :
    writeBlob H C fs b =
      if fsFind fs (blobPath H b) = none then
        Except.ok (blobHash H b, fsInsert (blobPath H b) (C.comp (blobFull b)) fs)
      else
        Except.ok (blobHash H b, fs) := by
  unfold writeBlob writeObject
  rw [show H.hashHex (fullObjectOf "blob".toList b) = blobHash H b from rfl,
      blobPath_getObjectPath]
  exact rfl

/-- C1: for every byte string b, writeBlob returns an identifier such that
readBlob on the resulting store returns exactly b.  The hypothesis states
that the derived object path is either still free (a fresh write) or
already holds the compressed bytes of this very object — the
content-addressing invariant for a store maintained by writeBlob. -/
theorem writeBlob_readBlob_roundtrip (H : HasherM) (C : Codec) (fs : FS) (b : Str)
    (hprior : fsFind fs (blobPath H b) = none ∨
              fsFind fs (blobPath H b) = some (C.comp (blobFull b))) :
    ∃ fs', writeBlob H C fs b = Except.ok (blobHash H b, fs') ∧
           readBlob C fs' (blobHash H b) = Except.ok b := by
  rw [writeBlob_eq]
  rcases hprior with hnone | hsome
  · rw [if_pos hnone]
    refine ⟨_, rfl, readBlob_of_find C _ H b ?_⟩
    unfold fsInsert fsFind
    simp
  · have hne : fsFind fs (blobPath H b) ≠ none := by rw [hsome]; simp
    rw [if_neg hne]
    exact ⟨fs, rfl, readBlob_of_find C fs H b hsome⟩

/-- C1 witness: the round-trip evaluated on the empty store and "hello". -/
theorem writeBlob_readBlob_roundtrip_witness :
    ∃ fs', writeBlob H0 idCodec [] "hello".toList =
             Except.ok (blobHash H0 "hello".toList, fs') ∧
           readBlob idCodec fs' (blobHash H0 "hello".toList) =
             Except.ok "hello".toList :=
  writeBlob_readBlob_roundtrip H0 idCodec [] "hello".toList (Or.inl rfl)

/-- C2: writeBlob called twice returns the same identifier both times, the
second call leaves the store untouched (write-if-absent), and after the
first call exactly the hash-derived path holds an object while every
other path is unchanged. -/
theorem writeBlob_twice (H : HasherM) (C : Codec) (fs : FS) (b : Str) :
    ∃ fs₁, writeBlob H C fs b = Except.ok (blobHash H b, fs₁) ∧
           writeBlob H C fs₁ b = Except.ok (blobHash H b, fs₁) ∧
           (fsFind fs₁ (blobPath H b)).isSome = true ∧
           ∀ p, p ≠ blobPath H b → fsFind fs₁ p = fsFind fs p := by
  by_cases hfind : fsFind fs (blobPath H b) = none
  · refine ⟨fsInsert (blobPath H b) (C.comp (blobFull b)) fs, ?_, ?_, ?_, ?_⟩
    · rw [writeBlob_eq, if_pos hfind]
    · have hsome : fsFind (fsInsert (blobPath H b) (C.comp (blobFull b)) fs)
          (blobPath H b) = some (C.comp (blobFull b)) := by
        unfold fsInsert fsFind; simp
      rw [writeBlob_eq, if_neg (by rw [hsome]; simp)]
    · unfold fsInsert fsFind; simp
    · intro p hp
      show (if blobPath H b = p then some (C.comp (blobFull b)) else fsFind fs p) =
        fsFind fs p
      rw [if_neg fun h => hp h.symm]
  · refine ⟨fs, ?_, ?_, ?_, fun p _ => rfl⟩
    · rw [writeBlob_eq, if_neg hfind]
    · rw [writeBlob_eq, if_neg hfind]
    · rcases Option.ne_none_iff_exists.mp hfind with ⟨v, hv⟩
      rw [← hv]
      rfl

/-- C2 witness: evaluated on the empty store and "hello". -/
theorem writeBlob_twice_witness :
    ∃ fs₁, writeBlob H0 idCodec [] "hello".toList =
             Except.ok (blobHash H0 "hello".toList, fs₁) ∧
           writeBlob H0 idCodec fs₁ "hello".toList =
             Except.ok (blobHash H0 "hello".toList, fs₁) ∧
           (fsFind fs₁ (blobPath H0 "hello".toList)).isSome = true ∧
           ∀ p, p ≠ blobPath H0 "hello".toList → fsFind fs₁ p = fsFind [] p :=
  writeBlob_twice H0 idCodec [] "hello".toList

/-! ### C10: unrecognized hash algorithm names fall back to SHA-1 -/

/-- C10: for every algorithm name other than "sha1" and "sha256",
HasherFactory::create returns the default 20-byte SHA-1 hasher. -/
theorem hasherFactoryCreate_default (s : Str)
    (h1 : s ≠ "sha1".toList) (h2 : s ≠ "sha256".toList) :
    hasherFactoryCreate s = HashAlgo.sha1 ∧ digestSize (hasherFactoryCreate s) = 20 := by
  unfold hasherFactoryCreate createDefault
  rw [if_neg h1, if_neg h2]
  exact ⟨rfl, rfl⟩

/-- C10 witness: the unrecognized name "md5" degrades to SHA-1. -/
theorem hasherFactoryCreate_default_witness :
    hasherFactoryCreate "md5".toList = HashAlgo.sha1 ∧
    digestSize (hasherFactoryCreate "md5".toList) = 20 :=
  hasherFactoryCreate_default "md5".toList (by decide) (by decide)

/-! ### C6: createBranch on an existing branch -/

/-- C6 counterexample: with a branch "main" already existing, createBranch
succeeds (the claim says it fails) and overwrites the existing ref file
(the claim says it is left unchanged). -/
theorem createBranch_existing_cex :
    branchExists [(refsHeadsPath "main".toList, "oldhash\n".toList)]
        "main".toList = true ∧
    (createBranch [(refsHeadsPath "main".toList, "oldhash\n".toList)]
        okRefEnv "main".toList "newhash".toList).1 = Except.ok () ∧
    fsFind (createBranch [(refsHeadsPath "main".toList, "oldhash\n".toList)]
        okRefEnv "main".toList "newhash".toList).2 (refsHeadsPath "main".toList) =
      some "newhash\n".toList ∧
    ("newhash\n".toList : Str) ≠ "oldhash\n".toList := by
  refine ⟨rfl, rfl, rfl, by decide⟩

/-- C6 amended: Repository::createBranch performs no existing-branch check;
when a branch of the name already exists and the filesystem steps succeed,
it succeeds and overwrites the existing ref file with the new commit id
(the duplicate-branch failure is enforced by its caller, CheckoutCommand,
via branchExists, not by createBranch itself). -/
theorem createBranch_overwrites_existing (fs : FS) (name hash : Str)
    (hex : branchExists fs name = true) :
    (createBranch fs okRefEnv name hash).1 = Except.ok () ∧
    fsFind (createBranch fs okRefEnv name hash).2 (refsHeadsPath name) =
      some (hash ++ ['\n']) := by
  unfold createBranch okRefEnv
  refine ⟨rfl, ?_⟩
  unfold fsInsert fsFind
  simp

/-- C6 amended witness: evaluated on a store holding branch "main". -/
theorem createBranch_overwrites_existing_witness :
    (createBranch [(refsHeadsPath "main".toList, "oldhash\n".toList)]
        okRefEnv "main".toList "newhash".toList).1 = Except.ok () ∧
    fsFind (createBranch [(refsHeadsPath "main".toList, "oldhash\n".toList)]
        okRefEnv "main".toList "newhash".toList).2 (refsHeadsPath "main".toList) =
      some ("newhash".toList ++ ['\n']) :=
  createBranch_overwrites_existing
    [(refsHeadsPath "main".toList, "oldhash\n".toList)]
    "main".toList "newhash".toList (by decide)

/-! ### C9: switchToBranch never checks branch existence -/

/-- C9: switchToBranch succeeds whenever the HEAD write succeeds and
rewrites HEAD to `ref: refs/heads/<name>\n`, even for a branch that does
not exist (HEAD silently attaches to an unborn branch). -/
theorem switchToBranch_no_existence_check (fs : FS) (name : Str)
    (hne : branchExists fs name = false) :
    (switchToBranch fs okRefEnv name).1 = Except.ok () ∧
    fsFind (switchToBranch fs okRefEnv name).2 headPath =
      some ("ref: refs/heads/".toList ++ name ++ ['\n']) := by
  unfold switchToBranch okRefEnv
  refine ⟨rfl, ?_⟩
  unfold fsInsert fsFind
  simp

/-- C9 witness: switching an empty repository to the nonexistent branch
"ghost" succeeds and attaches HEAD to it. -/
theorem switchToBranch_no_existence_check_witness :
    (switchToBranch [] okRefEnv "ghost".toList).1 = Except.ok () ∧
    fsFind (switchToBranch [] okRefEnv "ghost".toList).2 headPath =
      some ("ref: refs/heads/".toList ++ "ghost".toList ++ ['\n']) :=
  switchToBranch_no_existence_check [] "ghost".toList (by decide)

/-! ### Filesystem map lemmas -/

theorem fsFind_fsInsert_self (p : FPath) (v : Str) (fs : FS) :
    fsFind (fsInsert p v fs) p = some v := by
  unfold fsInsert fsFind
  simp

theorem fsFind_fsInsert_ne (p q : FPath) (v : Str) (fs : FS) (h : q ≠ p) :
    fsFind (fsInsert p v fs) q = fsFind fs q := by
  show (if p = q then some v else fsFind fs q) = fsFind fs q
  rw [if_neg fun h0 => h h0.symm]

theorem fsFind_fsRemove_self (p : FPath) (fs : FS) :
    fsFind (fsRemove p fs) p = none := by
  induction fs with
  | nil => rfl
  | cons qv rest ih =>
    unfold fsRemove at *
    by_cases h : qv.1 = p
    · rw [List.filter_cons_of_neg (by simp [h])]
      exact ih
    · rw [List.filter_cons_of_pos (by simp [h])]
      show (if qv.1 = p then some qv.2 else fsFind (List.filter _ rest) p) = none
      rw [if_neg h]
      exact ih

theorem fsFind_fsRemove_ne (p q : FPath) (fs : FS) (h : q ≠ p) :
    fsFind (fsRemove p fs) q = fsFind fs q := by
  induction fs with
  | nil => rfl
  | cons rv rest ih =>
    unfold fsRemove at *
    by_cases h1 : rv.1 = p
    · rw [List.filter_cons_of_neg (by simp [h1])]
      rw [ih]
      show fsFind rest q = (if rv.1 = q then some rv.2 else fsFind rest q)
      rw [if_neg (h1 ▸ fun h0 => h h0.symm)]
    · rw [List.filter_cons_of_pos (by simp [h1])]
      show (if rv.1 = q then some rv.2 else fsFind (List.filter _ rest) q) =
        (if rv.1 = q then some rv.2 else fsFind rest q)
      by_cases h2 : rv.1 = q
      · rw [if_pos h2, if_pos h2]
      · rw [if_neg h2, if_neg h2, ih]

/-! ### C8: Index::save writes via a temp file and an atomic rename -/

/-- C8: Index::save either succeeds and installs the serialized entries at
the index path with the temp file gone, or fails, leaves the previously
saved index untouched, and leaves no temp file behind.  The hypothesis
states that no stale temp file pre-exists. -/
theorem indexSave_atomic (fs : FS) (env : SaveEnv)
    (entries : List (Str × IndexEntry))
    (htmp : fsFind fs tempIndexPath = none) :
    ((indexSave fs env entries).1 = false →
        fsFind (indexSave fs env entries).2 indexFilePath =
          fsFind fs indexFilePath ∧
        fsFind (indexSave fs env entries).2 tempIndexPath = none) ∧
    ((indexSave fs env entries).1 = true →
        fsFind (indexSave fs env entries).2 indexFilePath =
          some (serializeIndex entries) ∧
        fsFind (indexSave fs env entries).2 tempIndexPath = none) := by
  have hne : indexFilePath ≠ tempIndexPath := by decide
  have h1 : fsFind (fsRemove tempIndexPath
      (fsInsert tempIndexPath (serializeIndex entries) fs)) indexFilePath =
      fsFind fs indexFilePath := by
    rw [fsFind_fsRemove_ne _ _ _ hne, fsFind_fsInsert_ne _ _ _ _ hne]
  have h2 : fsFind (fsRemove tempIndexPath
      (fsInsert tempIndexPath (serializeIndex entries) fs)) tempIndexPath =
      none := fsFind_fsRemove_self _ _
  have h3 : fsFind (fsInsert indexFilePath (serializeIndex entries)
      (fsRemove tempIndexPath
        (fsInsert tempIndexPath (serializeIndex entries) fs))) indexFilePath =
      some (serializeIndex entries) := fsFind_fsInsert_self _ _ _
  have h4 : fsFind (fsInsert indexFilePath (serializeIndex entries)
      (fsRemove tempIndexPath
        (fsInsert tempIndexPath (serializeIndex entries) fs))) tempIndexPath =
      none := by
    rw [fsFind_fsInsert_ne _ _ _ _ (fun h => hne h.symm)]
    exact h2
  unfold indexSave
  rcases env with ⟨mk, op, wr, rn⟩
  cases mk <;> cases op <;> cases wr <;> cases rn <;>
    simp [h1, h2, h3, h4, htmp]

/-- C8 witness: a successful save on the empty filesystem. -/
theorem indexSave_atomic_witness :
    ((indexSave [] ⟨false, false, false, false⟩ []).1 = false →
        fsFind (indexSave [] ⟨false, false, false, false⟩ []).2 indexFilePath =
          fsFind [] indexFilePath ∧
        fsFind (indexSave [] ⟨false, false, false, false⟩ []).2 tempIndexPath =
          none) ∧
    ((indexSave [] ⟨false, false, false, false⟩ []).1 = true →
        fsFind (indexSave [] ⟨false, false, false, false⟩ []).2 indexFilePath =
          some (serializeIndex []) ∧
        fsFind (indexSave [] ⟨false, false, false, false⟩ []).2 tempIndexPath =
          none) :=
  indexSave_atomic [] ⟨false, false, false, false⟩ [] rfl

/-! ### C7: Index::load skips the single corrupt record -/

theorem parseIndexLine_nil : parseIndexLine [] = none := rfl

theorem loadGo_cons (line : Str) (rest : List Str)
    (m : List (Str × IndexEntry)) :
    loadGo (line :: rest) m =
      if stripCR line = [] then loadGo rest m
      else
        match parseIndexLine (stripCR line) with
        | none => loadGo rest m
        | some ke => loadGo rest (mapInsert ke.1 ke.2 m) := rfl

theorem loadGo_skip (A B : List Str) (c : Str)
    (hcne : stripCR c ≠ []) (hcbad : parseIndexLine (stripCR c) = none) :
    ∀ m, loadGo (A ++ c :: B) m = loadGo (A ++ B) m := by
  induction A with
  | nil =>
    intro m
    simp only [List.nil_append]
    rw [loadGo_cons, if_neg hcne, hcbad]
  | cons a A ih =>
    intro m
    simp only [List.cons_append]
    rw [loadGo_cons, loadGo_cons]
    by_cases h : stripCR a = []
    · rw [if_pos h, if_pos h]
      exact ih m
    · rw [if_neg h, if_neg h]
      cases hp : parseIndexLine (stripCR a) with
      | none => exact ih m
      | some ke => exact ih (mapInsert ke.1 ke.2 m)

theorem mapInsert_of_not_mem (k : Str) (e : IndexEntry)
    (m : List (Str × IndexEntry)) (h : ∀ p ∈ m, p.1 ≠ k) :
    mapInsert k e m = m ++ [(k, e)] := by
  induction m with
  | nil => rfl
  | cons p rest ih =>
    unfold mapInsert
    rw [if_neg (h p (List.mem_cons_self _ _))]
    rw [ih fun q hq => h q (List.mem_cons_of_mem _ hq)]
    rfl

theorem mem_mapInsert (k : Str) (e : IndexEntry)
    (m : List (Str × IndexEntry)) (p : Str × IndexEntry)
    (hp : p ∈ mapInsert k e m) : p.1 = k ∨ p ∈ m := by
  induction m with
  | nil =>
    simp only [mapInsert, List.mem_singleton] at hp
    left
    rw [hp]
  | cons q rest ih =>
    unfold mapInsert at hp
    by_cases h : q.1 = k
    · rw [if_pos h] at hp
      rcases List.mem_cons.mp hp with h1 | h1
      · left; rw [h1]
      · right; exact List.mem_cons_of_mem _ h1
    · rw [if_neg h] at hp
      rcases List.mem_cons.mp hp with h1 | h1
      · right; rw [h1]; exact List.mem_cons_self _ _
      · rcases ih h1 with h2 | h2
        · left; exact h2
        · right; exact List.mem_cons_of_mem _ h2

theorem loadGo_all_valid (lines : List Str) :
    ∀ m, (∀ l ∈ lines, (parseIndexLine (stripCR l)).isSome = true) →
    lines.Pairwise (fun l1 l2 => lineKey l1 ≠ lineKey l2) →
    (∀ l ∈ lines, ∀ p ∈ m, lineKey l ≠ some p.1) →
    loadGo lines m = m ++ lines.map parsedRecord := by
  induction lines with
  | nil => intro m _ _ _; simp [loadGo]
  | cons l rest ih =>
    intro m hval hpw hm
    obtain ⟨ke, hk⟩ := Option.isSome_iff_exists.mp (hval l (List.mem_cons_self _ _))
    have hcne : stripCR l ≠ [] := by
      intro h0
      rw [h0, parseIndexLine_nil] at hk
      cases hk
    have hkey : lineKey l = some ke.1 := by
      unfold lineKey
      rw [hk]
      rfl
    have hrec : parsedRecord l = ke := by
      unfold parsedRecord
      rw [hk]
      rfl
    have hnotin : ∀ p ∈ m, p.1 ≠ ke.1 := by
      intro p hp h0
      exact hm l (List.mem_cons_self _ _) p hp (by rw [hkey, h0])
    have harg : ∀ l' ∈ rest, ∀ p ∈ mapInsert ke.1 ke.2 m, lineKey l' ≠ some p.1 := by
      intro l' hl' p hp
      rcases mem_mapInsert ke.1 ke.2 m p hp with h1 | h1
      · rw [h1]
        intro h0
        have hd := (List.pairwise_cons.mp hpw).1 l' hl'
        rw [hkey, h0] at hd
        exact hd rfl
      · exact hm l' (List.mem_cons_of_mem _ hl') p h1
    rw [loadGo_cons, if_neg hcne, hk]
    show loadGo rest (mapInsert ke.1 ke.2 m) = m ++ List.map parsedRecord (l :: rest)
    rw [ih (mapInsert ke.1 ke.2 m)
        (fun l' hl' => hval l' (List.mem_cons_of_mem _ hl'))
        (List.Pairwise.of_cons hpw) harg]
    rw [mapInsert_of_not_mem _ _ _ hnotin]
    simp only [List.map_cons, hrec, List.append_assoc, List.singleton_append]

/-- C7: loading index lines consisting of well-formed records around one
corrupt record yields exactly the valid records (the corrupt one is
skipped, and with pairwise-distinct normalized paths the count equals the
number of valid lines; in particular it is not zero when N ≥ 1). -/
theorem loadLines_skips_corrupt (A B : List Str) (c : Str)
    (hval : ∀ l ∈ A ++ B, (parseIndexLine (stripCR l)).isSome = true)
    (hcne : stripCR c ≠ []) (hcbad : parseIndexLine (stripCR c) = none)
    (hnd : (A ++ B).Pairwise (fun l1 l2 => lineKey l1 ≠ lineKey l2)) :
    loadLines (A ++ c :: B) = (A ++ B).map parsedRecord ∧
    (loadLines (A ++ c :: B)).length = (A ++ B).length := by
  have hmain : loadLines (A ++ c :: B) = (A ++ B).map parsedRecord := by
    unfold loadLines
    rw [loadGo_skip A B c hcne hcbad []]
    rw [loadGo_all_valid (A ++ B) [] hval hnd (by intro l _ p hp; cases hp)]
    rfl
  refine ⟨hmain, ?_⟩
  rw [hmain, List.length_map]

/-- C7 witness: two valid lines around one line with a non-hex hash. -/
theorem loadLines_skips_corrupt_witness :
    loadLines (["a.txt\taaaaaaaaaaaaaaaaaaaaaaaaaaaaaaaaaaaaaaaa\t1\t2\t3\t4".toList] ++
        "b.txt\tzz\t1\t2\t3\t4".toList ::
        ["c.txt\tbbbbbbbbbbbbbbbbbbbbbbbbbbbbbbbbbbbbbbbb\t5\t6\t7\t8".toList]) =
      (["a.txt\taaaaaaaaaaaaaaaaaaaaaaaaaaaaaaaaaaaaaaaa\t1\t2\t3\t4".toList] ++
        ["c.txt\tbbbbbbbbbbbbbbbbbbbbbbbbbbbbbbbbbbbbbbbb\t5\t6\t7\t8".toList]).map
        parsedRecord ∧
    (loadLines (["a.txt\taaaaaaaaaaaaaaaaaaaaaaaaaaaaaaaaaaaaaaaa\t1\t2\t3\t4".toList] ++
        "b.txt\tzz\t1\t2\t3\t4".toList ::
        ["c.txt\tbbbbbbbbbbbbbbbbbbbbbbbbbbbbbbbbbbbbbbbb\t5\t6\t7\t8".toList])).length =
      (["a.txt\taaaaaaaaaaaaaaaaaaaaaaaaaaaaaaaaaaaaaaaa\t1\t2\t3\t4".toList] ++
        ["c.txt\tbbbbbbbbbbbbbbbbbbbbbbbbbbbbbbbbbbbbbbbb\t5\t6\t7\t8".toList]).length :=
  loadLines_skips_corrupt _ _ _ (by decide) (by decide) (by decide) (by decide)

/-! ### Decimal printing lemmas -/

theorem natToDecGo_irrel (n : Nat) : ∀ f1 f2, n < f1 → n < f2 →
    natToDecGo f1 n = natToDecGo f2 n := by
  induction n using Nat.strong_induction_on with
  | _ n ih =>
    intro f1 f2 h1 h2
    cases f1 with
    | zero => omega
    | succ g1 =>
      cases f2 with
      | zero => omega
      | succ g2 =>
        unfold natToDecGo
        by_cases h10 : n < 10
        · rw [if_pos h10, if_pos h10]
        · rw [if_neg h10, if_neg h10]
          congr 1
          have hdiv : n / 10 < n :=
            Nat.div_lt_self (by omega) (by decide)
          exact ih (n / 10) hdiv g1 g2 (by omega) (by omega)

theorem natToDec_lt {n : Nat} (h : n < 10) : natToDec n = [Char.ofNat (48 + n)] := by
  unfold natToDec natToDecGo
  rw [if_pos h]

theorem natToDec_ge {n : Nat} (h : 10 ≤ n) :
    natToDec n = natToDec (n / 10) ++ [Char.ofNat (48 + n % 10)] := by
  unfold natToDec
  have e : natToDecGo (n + 1) n =
      if n < 10 then [Char.ofNat (48 + n)]
      else natToDecGo n (n / 10) ++ [Char.ofNat (48 + n % 10)] := rfl
  rw [e, if_neg (Nat.not_lt.mpr h)]
  congr 1
  exact natToDecGo_irrel (n / 10) n (n / 10 + 1)
    (Nat.div_lt_self (by omega) (by decide)) (Nat.lt_succ_self _)

theorem natToDec_ne_nil (n : Nat) : natToDec n ≠ [] := by
  by_cases h : n < 10
  · rw [natToDec_lt h]; simp
  · rw [natToDec_ge (Nat.le_of_not_lt h)]; simp

theorem natToDec_all_digit (n : Nat) : ∀ c ∈ natToDec n, isDigitCh c = true := by
  induction n using Nat.strong_induction_on with
  | _ n ih =>
    have hdig : ∀ k, k < 10 → isDigitCh (Char.ofNat (48 + k)) = true := by decide
    by_cases h : n < 10
    · rw [natToDec_lt h]
      intro c hc
      simp only [List.mem_singleton] at hc
      rw [hc]
      exact hdig n h
    · rw [natToDec_ge (Nat.le_of_not_lt h)]
      intro c hc
      rcases List.mem_append.mp hc with h1 | h2
      · exact ih (n / 10) (Nat.div_lt_self (by omega) (by decide)) c h1
      · simp only [List.mem_singleton] at h2
        rw [h2]
        exact hdig (n % 10) (Nat.mod_lt n (by decide))

theorem digitsVal_append_singleton (ds : Str) (c : Char) :
    digitsVal (ds ++ [c]) = digitsVal ds * 10 + (c.toNat - 48) := by
  unfold digitsVal
  rw [List.foldl_append]
  rfl

theorem digitsVal_natToDec (n : Nat) : digitsVal (natToDec n) = n := by
  induction n using Nat.strong_induction_on with
  | _ n ih =>
    have htn : ∀ k, k < 10 → (Char.ofNat (48 + k)).toNat = 48 + k := by decide
    by_cases h : n < 10
    · rw [natToDec_lt h]
      show digitsVal ([] ++ [Char.ofNat (48 + n)]) = n
      rw [digitsVal_append_singleton, htn n h]
      simp [digitsVal]
    · rw [natToDec_ge (Nat.le_of_not_lt h), digitsVal_append_singleton,
          ih (n / 10) (Nat.div_lt_self (by omega) (by decide)),
          htn (n % 10) (Nat.mod_lt n (by decide))]
      omega

/-! ### Character class lemmas -/

theorem isDigitCh_spec {c : Char} (h : isDigitCh c = true) : '0' ≤ c ∧ c ≤ '9' := by
  unfold isDigitCh at h
  exact of_decide_eq_true h

theorem isDigitCh_not_space {c : Char} (h : isDigitCh c = true) : isSpaceCh c = false := by
  have hc := isDigitCh_spec h
  unfold isSpaceCh
  apply decide_eq_false
  intro hor
  rcases hor with h1 | h1 | h1 | h1 | h1 | h1 <;>
    (subst h1; exact absurd hc (by decide))

theorem isDigitCh_ne {c : Char} (h : isDigitCh c = true) :
    c ≠ '-' ∧ c ≠ '+' ∧ c ≠ '\n' := by
  have hc := isDigitCh_spec h
  refine ⟨?_, ?_, ?_⟩ <;> (intro h1; subst h1; exact absurd hc (by decide))

theorem isXdigitCh_spec {c : Char} (h : isXdigitCh c = true) :
    ('0' ≤ c ∧ c ≤ '9') ∨ ('a' ≤ c ∧ c ≤ 'f') ∨ ('A' ≤ c ∧ c ≤ 'F') := by
  unfold isXdigitCh at h
  exact of_decide_eq_true h

theorem isXdigitCh_not_ht {c : Char} (h : isXdigitCh c = true) : isHT c = false := by
  have hc := isXdigitCh_spec h
  unfold isHT
  apply decide_eq_false
  intro hor
  rcases hor with h1 | h1 <;>
    (subst h1;
     rcases hc with h2 | h2 | h2 <;> exact absurd h2 (by decide))

theorem isXdigitCh_ne_nl {c : Char} (h : isXdigitCh c = true) : c ≠ '\n' := by
  have hc := isXdigitCh_spec h
  intro h1
  subst h1
  rcases hc with h2 | h2 | h2 <;> exact absurd h2 (by decide)

theorem hashOkB_spec {h : Str} (hh : hashOkB h = true) :
    h.length = 40 ∧ ∀ c ∈ h, isXdigitCh c = true := by
  unfold hashOkB at hh
  simp only [Bool.and_eq_true] at hh
  rcases hh with ⟨h1, h2⟩
  refine ⟨by exact_mod_cast of_decide_eq_true h1, ?_⟩
  intro c hc
  exact List.all_eq_true.mp h2 c hc

/-! ### takeWhile / dropWhile / trim lemmas -/

theorem dropWhile_eq_self_of (p : Char → Bool) (s : Str)
    (h : ∀ c ∈ s, p c = false) : s.dropWhile p = s := by
  cases s with
  | nil => rfl
  | cons a t =>
    rw [List.dropWhile_cons, h a (List.mem_cons_self _ _)]
    simp

theorem takeWhile_eq_self_of (p : Char → Bool) (s : Str)
    (h : ∀ c ∈ s, p c = true) : s.takeWhile p = s := by
  induction s with
  | nil => rfl
  | cons a t ih =>
    rw [List.takeWhile_cons, h a (List.mem_cons_self _ _)]
    simp only [if_true]
    rw [ih fun c hc => h c (List.mem_cons_of_mem _ hc)]

theorem trimWs_eq_self (s : Str) (h : ∀ c ∈ s, isHT c = false) : trimWs s = s := by
  unfold trimWs
  rw [dropWhile_eq_self_of _ _ h,
      dropWhile_eq_self_of _ _ (fun c hc => h c (List.mem_reverse.mp hc)),
      List.reverse_reverse]

/-! ### Stream extraction lemmas (istream >> int64 / >> string) -/

theorem dropWhile_all_true (p : Char → Bool) (s : Str)
    (h : ∀ c ∈ s, p c = true) : s.dropWhile p = [] := by
  induction s with
  | nil => rfl
  | cons a t ih =>
    rw [List.dropWhile_cons, h a (List.mem_cons_self _ _)]
    simp only [if_true]
    exact ih fun c hc => h c (List.mem_cons_of_mem _ hc)

theorem intToDec_ne_nil (i : Int) : intToDec i ≠ [] := by
  unfold intToDec
  by_cases h : i < 0
  · rw [if_pos h]; simp
  · rw [if_neg h]; exact natToDec_ne_nil _

theorem pow64_val : (2 : Nat) ^ 64 = 18446744073709551616 := by norm_num

theorem cppSub_sub {a b : Nat} (hb : b ≤ a) (ha : a < 2 ^ 64) :
    cppSub a b = a - b := by
  unfold cppSub
  rw [pow64_val] at *
  omega

theorem extractInt64_digits (ds : Str) (x : Char) (tail : Str)
    (hds : ds ≠ []) (hdig : ∀ c ∈ ds, isDigitCh c = true)
    (hx1 : isDigitCh x = false)
    (hval : (digitsVal ds : Int) ≤ 2 ^ 63 - 1) :
    extractInt64 (ds ++ x :: tail) = (true, (digitsVal ds : Int), x :: tail) := by
  obtain ⟨d, ds', rfl⟩ := List.exists_cons_of_ne_nil hds
  have hd : isDigitCh d = true := hdig d (List.mem_cons_self _ _)
  unfold extractInt64
  simp only [List.cons_append]
  have e1 : List.dropWhile isSpaceCh (d :: (ds' ++ x :: tail)) =
      d :: (ds' ++ x :: tail) := by
    rw [List.dropWhile_cons, isDigitCh_not_space hd]
    simp
  rw [e1]
  have e2 : (d :: (ds' ++ x :: tail)).take 1 = [d] := rfl
  rw [e2]
  have hdm : d ≠ '-' := (isDigitCh_ne hd).1
  have hdp : d ≠ '+' := (isDigitCh_ne hd).2.1
  have hor : ¬([d] = ['-'] ∨ [d] = ['+']) := by
    intro hor
    rcases hor with h1 | h1 <;> simp only [List.cons.injEq, and_true] at h1
    · exact hdm h1
    · exact hdp h1
  rw [if_neg hor]
  have e3 : List.takeWhile isDigitCh (d :: (ds' ++ x :: tail)) = d :: ds' := by
    have := takeWhile_append_of_neg isDigitCh (d :: ds') tail x hdig hx1
    simpa using this
  have e4 : List.dropWhile isDigitCh (d :: (ds' ++ x :: tail)) = x :: tail := by
    have := dropWhile_append_of_neg isDigitCh (d :: ds') tail x hdig hx1
    simpa using this
  rw [e3, e4]
  rw [if_neg (by simp : ¬(d :: ds' = ([] : Str)))]
  have hne : ¬([d] = ['-']) := by
    simp only [List.cons.injEq, and_true]
    exact hdm
  rw [if_neg hne]
  have hge : (0 : Int) ≤ (digitsVal (d :: ds') : Int) := Int.natCast_nonneg _
  rw [if_neg (by omega : ¬((digitsVal (d :: ds') : Int) < -(2 ^ 63)))]
  rw [if_neg (by omega : ¬((digitsVal (d :: ds') : Int) > 2 ^ 63 - 1))]

theorem extractInt64_neg_digits (ds : Str) (x : Char) (tail : Str)
    (hds : ds ≠ []) (hdig : ∀ c ∈ ds, isDigitCh c = true)
    (hx1 : isDigitCh x = false)
    (hval : (digitsVal ds : Int) ≤ 2 ^ 63) :
    extractInt64 ('-' :: (ds ++ x :: tail)) =
      (true, -(digitsVal ds : Int), x :: tail) := by
  unfold extractInt64
  have e1 : List.dropWhile isSpaceCh ('-' :: (ds ++ x :: tail)) =
      '-' :: (ds ++ x :: tail) := by
    rw [List.dropWhile_cons]
    simp [isSpaceCh]
  rw [e1]
  dsimp only
  have e2 : ('-' :: (ds ++ x :: tail)).take 1 = ['-'] := rfl
  rw [e2]
  rw [if_pos (Or.inl rfl)]
  have e3 : ('-' :: (ds ++ x :: tail)).drop 1 = ds ++ x :: tail := rfl
  rw [e3]
  rw [takeWhile_append_of_neg isDigitCh ds tail x hdig hx1,
      dropWhile_append_of_neg isDigitCh ds tail x hdig hx1]
  rw [if_neg hds]
  rw [if_pos rfl]
  have hge : (0 : Int) ≤ (digitsVal ds : Int) := Int.natCast_nonneg _
  rw [if_neg (by omega : ¬(-(digitsVal ds : Int) < -(2 ^ 63)))]
  rw [if_neg (by omega : ¬(-(digitsVal ds : Int) > 2 ^ 63 - 1))]

theorem extractInt64_intToDec (ts : Int) (tail : Str)
    (h1 : -(2 ^ 63) ≤ ts) (h2 : ts ≤ 2 ^ 63 - 1) :
    extractInt64 (intToDec ts ++ ' ' :: tail) = (true, ts, ' ' :: tail) := by
  have hsp : isDigitCh ' ' = false := by decide
  by_cases hneg : ts < 0
  · have habs : (ts.natAbs : Int) = -ts := by omega
    unfold intToDec
    rw [if_pos hneg]
    simp only [List.cons_append]
    rw [extractInt64_neg_digits (natToDec ts.natAbs) ' ' tail (natToDec_ne_nil _)
          (natToDec_all_digit _) hsp
          (by rw [digitsVal_natToDec]; omega)]
    rw [digitsVal_natToDec]
    rw [show -(ts.natAbs : Int) = ts by omega]
  · have habs : (ts.natAbs : Int) = ts := Int.natAbs_of_nonneg (Int.not_lt.mp hneg)
    unfold intToDec
    rw [if_neg hneg]
    rw [extractInt64_digits (natToDec ts.natAbs) ' ' tail (natToDec_ne_nil _)
          (natToDec_all_digit _) hsp
          (by rw [digitsVal_natToDec]; omega)]
    rw [digitsVal_natToDec, habs]

theorem extractToken_space_cons (tz : Str) (h : ∀ c ∈ tz, isSpaceCh c = false) :
    extractToken (' ' :: tz) = (tz, []) := by
  unfold extractToken
  have e1 : List.dropWhile isSpaceCh (' ' :: tz) = tz := by
    rw [List.dropWhile_cons]
    simp only [show isSpaceCh ' ' = true by decide, if_true]
    exact dropWhile_eq_self_of _ _ h
  rw [e1]
  dsimp only
  rw [takeWhile_eq_self_of _ _ (by intro c hc; rw [h c hc]; rfl),
      dropWhile_all_true _ _ (by intro c hc; rw [h c hc]; rfl)]

/-! ### std::string::find lemmas -/

theorem findCh_append_cons (c : Char) (pre post : Str) (h : c ∉ pre) :
    findCh c (pre ++ c :: post) = some pre.length := by
  induction pre with
  | nil =>
    simp [findCh]
  | cons a t ih =>
    simp only [List.cons_append, findCh]
    rw [if_neg (by intro he; exact h (by rw [← he]; exact List.mem_cons_self _ _))]
    simp only [List.append_eq]
    rw [ih fun hm => h (List.mem_cons_of_mem _ hm)]
    simp

/-! ### Person-line (author/committer) round-trip -/

theorem parsePerson_encode (name email : Str) (ts : Int) (tz : Str)
    (hn : ∀ ch ∈ name, ch ≠ '<' ∧ ch ≠ '>')
    (he : ∀ ch ∈ email, ch ≠ '>')
    (hnlen : name.length < 2 ^ 32) (helen : email.length < 2 ^ 32)
    (htznn : tz ≠ []) (htz : ∀ ch ∈ tz, isSpaceCh ch = false)
    (hts1 : -(2 ^ 63) ≤ ts) (hts2 : ts ≤ 2 ^ 63 - 1) :
    parsePerson (personStrOf name email ts tz) =
      Except.ok (some (name, email, ts, tz)) := by
  have hfind1 : findCh '<' (personStrOf name email ts tz) =
      some (name.length + 1) := by
    have hshape : personStrOf name email ts tz =
        (name ++ [' ']) ++ '<' :: (email ++ '>' :: ' ' :: (intToDec ts ++ ' ' :: tz)) := by
      unfold personStrOf
      simp [List.append_assoc]
    rw [hshape, findCh_append_cons _ _ _ (by
      intro hm
      rcases List.mem_append.mp hm with h1 | h1
      · exact (hn _ h1).1 rfl
      · simp only [List.mem_singleton] at h1; cases h1)]
    simp
  have hfind2 : findCh '>' (personStrOf name email ts tz) =
      some (name.length + 2 + email.length) := by
    have hshape : personStrOf name email ts tz =
        (name ++ ' ' :: '<' :: email) ++ '>' :: (' ' :: (intToDec ts ++ ' ' :: tz)) := by
      unfold personStrOf
      simp [List.append_assoc]
    rw [hshape, findCh_append_cons _ _ _ (by
      intro hm
      rcases List.mem_append.mp hm with h1 | h1
      · exact (hn _ h1).2 rfl
      · rcases List.mem_cons.mp h1 with h2 | h2
        · cases h2
        · rcases List.mem_cons.mp h2 with h3 | h3
          · cases h3
          · exact he _ h3 rfl)]
    simp only [List.length_append, List.length_cons]
    congr 1
    omega
  have hlen : (personStrOf name email ts tz).length =
      name.length + email.length + 5 + (intToDec ts).length + tz.length := by
    unfold personStrOf
    simp only [List.length_append, List.length_cons, List.length_nil,
      String.toList]
    omega
  have hitd : (intToDec ts).length ≥ 1 := by
    rcases List.exists_cons_of_ne_nil (intToDec_ne_nil ts) with ⟨y, ys, hy⟩
    rw [hy]
    simp
  unfold parsePerson
  rw [hfind1, hfind2]
  dsimp only
  rw [if_neg (by rw [hlen]; omega)]
  have hc1 : cppSub (name.length + 1) 1 = name.length := by
    rw [cppSub_sub (by omega) (by rw [pow64_val]; omega)]
    omega
  have hc2 : cppSub (name.length + 2 + email.length) (name.length + 1 + 1) =
      email.length := by
    rw [cppSub_sub (by omega) (by rw [pow64_val]; omega)]
    omega
  rw [hc1, hc2]
  have htake : (personStrOf name email ts tz).take name.length = name := by
    have hshape : personStrOf name email ts tz =
        name ++ (' ' :: '<' :: email ++ '>' :: ' ' :: (intToDec ts ++ ' ' :: tz)) := by
      unfold personStrOf
      simp [List.append_assoc]
    rw [hshape]
    exact List.take_left name _
  have hdropTake : ((personStrOf name email ts tz).drop (name.length + 1 + 1)).take
      email.length = email := by
    have hshape : personStrOf name email ts tz =
        (name ++ [' ', '<']) ++ (email ++ '>' :: ' ' :: (intToDec ts ++ ' ' :: tz)) := by
      unfold personStrOf
      simp [List.append_assoc]
    have hlen2 : (name ++ [' ', '<']).length = name.length + 1 + 1 := by
      simp only [List.length_append, List.length_cons, List.length_nil]
    rw [hshape, show name.length + 1 + 1 = (name ++ [' ', '<']).length from hlen2.symm,
        List.drop_left]
    exact List.take_left email _
  have hdrop2 : (personStrOf name email ts tz).drop
      (name.length + 2 + email.length + 2) = intToDec ts ++ ' ' :: tz := by
    have hshape : personStrOf name email ts tz =
        (name ++ ' ' :: '<' :: email ++ ['>', ' ']) ++ (intToDec ts ++ ' ' :: tz) := by
      unfold personStrOf
      simp [List.append_assoc]
    have hlen2 : (name ++ ' ' :: '<' :: email ++ ['>', ' ']).length =
        name.length + 2 + email.length + 2 := by
      simp only [List.length_append, List.length_cons, List.length_nil]
      omega
    rw [hshape, show name.length + 2 + email.length + 2 =
          (name ++ ' ' :: '<' :: email ++ ['>', ' ']).length from hlen2.symm,
        List.drop_left]
  rw [htake, hdropTake, hdrop2]
  rw [extractInt64_intToDec ts tz hts1 hts2]
  dsimp only
  rw [if_pos rfl]
  rw [extractToken_space_cons tz htz]

/-! ### Header-line dispatch lemmas -/

theorem applyHeaderLine_tree (hash : Str) (c : CommitRec) (v : Str) :
    applyHeaderLine hash c ("tree ".toList ++ v) =
      if SHA1_HEX_LENGTH ≤ (trimWs v).length then
        Except.ok { c with treeHash := (trimWs v).take SHA1_HEX_LENGTH }
      else Except.error ("Invalid tree hash length in commit: ".toList ++ hash) := by
  unfold applyHeaderLine
  rw [if_pos (isPrefixOf_append _ _)]
  rw [show ("tree ".toList ++ v).drop 5 = v from List.drop_left' (by rfl)]

theorem applyHeaderLine_parent (hash : Str) (c : CommitRec) (v : Str) :
    applyHeaderLine hash c ("parent ".toList ++ v) =
      if SHA1_HEX_LENGTH ≤ (trimWs v).length then
        Except.ok { c with parentHashes :=
          c.parentHashes ++ [(trimWs v).take SHA1_HEX_LENGTH] }
      else Except.error ("Invalid parent hash length in commit: ".toList ++ hash) := by
  unfold applyHeaderLine
  have hf : ("tree ".toList.isPrefixOf ("parent ".toList ++ v)) = false := rfl
  rw [if_neg (by simp [hf])]
  rw [if_pos (isPrefixOf_append _ _)]
  rw [show ("parent ".toList ++ v).drop 7 = v from List.drop_left' (by rfl)]

theorem applyHeaderLine_author (hash : Str) (c : CommitRec) (ps : Str)
    (n em : Str) (t : Int) (z : Str)
    (hpp : parsePerson ps = Except.ok (some (n, em, t, z))) :
    applyHeaderLine hash c ("author ".toList ++ ps) =
      Except.ok { c with authorName := n, authorEmail := em,
                         authorTimestamp := t, authorTimezone := z } := by
  unfold applyHeaderLine
  have hf1 : ("tree ".toList.isPrefixOf ("author ".toList ++ ps)) = false := rfl
  have hf2 : ("parent ".toList.isPrefixOf ("author ".toList ++ ps)) = false := rfl
  rw [if_neg (by simp [hf1]), if_neg (by simp [hf2]),
      if_pos (isPrefixOf_append _ _)]
  rw [show ("author ".toList ++ ps).drop 7 = ps from List.drop_left' (by rfl)]
  rw [hpp]

theorem applyHeaderLine_committer (hash : Str) (c : CommitRec) (ps : Str)
    (n em : Str) (t : Int) (z : Str)
    (hpp : parsePerson ps = Except.ok (some (n, em, t, z))) :
    applyHeaderLine hash c ("committer ".toList ++ ps) =
      Except.ok { c with committerName := n, committerEmail := em,
                         committerTimestamp := t, committerTimezone := z } := by
  unfold applyHeaderLine
  have hf1 : ("tree ".toList.isPrefixOf ("committer ".toList ++ ps)) = false := rfl
  have hf2 : ("parent ".toList.isPrefixOf ("committer ".toList ++ ps)) = false := rfl
  have hf3 : ("author ".toList.isPrefixOf ("committer ".toList ++ ps)) = false := rfl
  rw [if_neg (by simp [hf1]), if_neg (by simp [hf2]), if_neg (by simp [hf3]),
      if_pos (isPrefixOf_append _ _)]
  rw [show ("committer ".toList ++ ps).drop 10 = ps from List.drop_left' (by rfl)]
  rw [hpp]

/-! ### C5: tree/parent hash-value validation in readCommit -/

/-- C5 amended: a `tree ` or `parent ` header value is rejected with the
invalid-hash-length error precisely when its whitespace-trimmed length is
below 40; any value whose trimmed length is at least 40 is accepted with
only its first 40 characters kept, and its characters are never checked
for being hexadecimal. -/
theorem commit_hash_header_validation (hash : Str) (c : CommitRec) (v : Str) :
    (applyHeaderLine hash c ("tree ".toList ++ v) =
        Except.error ("Invalid tree hash length in commit: ".toList ++ hash) ↔
      (trimWs v).length < 40) ∧
    ((trimWs v).length ≥ 40 →
      applyHeaderLine hash c ("tree ".toList ++ v) =
        Except.ok { c with treeHash := (trimWs v).take 40 }) ∧
    (applyHeaderLine hash c ("parent ".toList ++ v) =
        Except.error ("Invalid parent hash length in commit: ".toList ++ hash) ↔
      (trimWs v).length < 40) ∧
    ((trimWs v).length ≥ 40 →
      applyHeaderLine hash c ("parent ".toList ++ v) =
        Except.ok { c with parentHashes := c.parentHashes ++ [(trimWs v).take 40] }) := by
  rw [applyHeaderLine_tree, applyHeaderLine_parent]
  unfold SHA1_HEX_LENGTH
  by_cases hl : 40 ≤ (trimWs v).length
  · rw [if_pos hl, if_pos hl]
    refine ⟨⟨fun h => ?_, fun h => ?_⟩, fun _ => rfl,
            ⟨fun h => ?_, fun h => ?_⟩, fun _ => rfl⟩
    · cases h
    · omega
    · cases h
    · omega
  · rw [if_neg hl, if_neg hl]
    refine ⟨⟨fun _ => ?_, fun _ => rfl⟩, fun h => ?_,
            ⟨fun _ => ?_, fun _ => rfl⟩, fun h => ?_⟩
    · omega
    · omega
    · omega
    · omega

/-- C5 counterexample: decoding a commit whose tree value consists of 40
'z' characters (not hexadecimal) succeeds, where the claim says any
non-hex content fails the decode. -/
theorem commit_nonhex_tree_accepted_cex :
    parseCommitContent [] ("tree ".toList ++ List.replicate 40 'z' ++ "\n\nx\n".toList) =
      Except.ok { emptyCommitRec with treeHash := List.replicate 40 'z',
                                      message := "x\n".toList } := by
  decide

/-- C5 witness: a 39-character value is rejected; a 41-character non-hex
value is accepted (truncated to 40 characters). -/
theorem commit_hash_header_validation_witness :
    (applyHeaderLine [] emptyCommitRec ("tree ".toList ++ List.replicate 39 'a') =
        Except.error ("Invalid tree hash length in commit: ".toList ++ [])) ∧
    (applyHeaderLine [] emptyCommitRec ("parent ".toList ++ List.replicate 41 'z') =
        Except.ok { emptyCommitRec with parentHashes :=
          emptyCommitRec.parentHashes ++ [(trimWs (List.replicate 41 'z')).take 40] }) :=
  ⟨(commit_hash_header_validation [] emptyCommitRec (List.replicate 39 'a')).1.mpr
      (by decide),
   (commit_hash_header_validation [] emptyCommitRec (List.replicate 41 'z')).2.2.2
      (by decide)⟩

/-! ### getline / line-splitting lemmas -/

theorem splitOnChar_ne_nil (c : Char) (s : Str) : splitOnChar c s ≠ [] := by
  cases s with
  | nil => simp [splitOnChar]
  | cons a rest =>
    unfold splitOnChar
    by_cases h : a = c
    · rw [if_pos h]; simp
    · rw [if_neg h]
      cases hs : splitOnChar c rest <;> simp

theorem splitOnChar_cons (c a : Char) (rest : Str) :
    splitOnChar c (a :: rest) =
      if a = c then [] :: splitOnChar c rest
      else
        match splitOnChar c rest with
        | [] => [[a]]
        | g :: gs => (a :: g) :: gs := rfl

theorem splitOnChar_append_cons (c : Char) (pre s : Str) (h : c ∉ pre) :
    splitOnChar c (pre ++ c :: s) = pre :: splitOnChar c s := by
  induction pre with
  | nil => simp [splitOnChar]
  | cons a t ih =>
    have ha : a ≠ c := fun he => h (by rw [he]; exact List.mem_cons_self _ _)
    simp only [List.cons_append]
    rw [splitOnChar_cons, if_neg ha, ih fun hm => h (List.mem_cons_of_mem _ hm)]

theorem getLast?_append_right (l₁ l₂ : Str) (h : l₂ ≠ []) :
    (l₁ ++ l₂).getLast? = l₂.getLast? := by
  obtain ⟨x, hx⟩ := Option.isSome_iff_exists.mp (List.getLast?_isSome.mpr h)
  rw [List.getLast?_append, hx]
  rfl

theorem getlineLines_nil : getlineLines [] = [] := rfl

theorem getlineLines_cons (line s : Str) (h : '\n' ∉ line) :
    getlineLines (line ++ '\n' :: s) = line :: getlineLines s := by
  unfold getlineLines
  have hne : line ++ '\n' :: s ≠ [] := by simp
  rw [if_neg hne]
  by_cases hs : s = []
  · subst hs
    have hlast : (line ++ '\n' :: ([] : Str)).getLast? = some '\n' :=
      getLast?_append_right _ _ (by simp)
    rw [if_pos hlast, splitOnChar_append_cons _ _ _ h]
    rfl
  · have hlast : (line ++ '\n' :: s).getLast? = s.getLast? := by
      rw [getLast?_append_right _ _ (by simp),
          show ('\n' :: s) = ['\n'] ++ s from rfl,
          getLast?_append_right _ _ hs]
    rw [hlast]
    by_cases hnl : s.getLast? = some '\n'
    · rw [if_pos hnl, splitOnChar_append_cons _ _ _ h,
          List.dropLast_cons_of_ne_nil (splitOnChar_ne_nil _ _),
          if_neg hs, if_pos hnl]
    · rw [if_neg hnl, splitOnChar_append_cons _ _ _ h, if_neg hs, if_neg hnl]

theorem exists_split_first (c : Char) (s : Str) (h : c ∈ s) :
    ∃ pre post, s = pre ++ c :: post ∧ c ∉ pre := by
  induction s with
  | nil => cases h
  | cons a t ih =>
    by_cases hac : a = c
    · exact ⟨[], t, by rw [hac]; rfl, by simp⟩
    · have hct : c ∈ t := by
        rcases List.mem_cons.mp h with h1 | h1
        · exact absurd h1.symm hac
        · exact h1
      obtain ⟨pre, post, heq, hpre⟩ := ih hct
      refine ⟨a :: pre, post, by rw [List.cons_append, ← heq], ?_⟩
      intro hm
      rcases List.mem_cons.mp hm with h1 | h1
      · exact hac h1.symm
      · exact hpre h1

theorem joinLines_nil : joinLines [] = [] := rfl

theorem joinLines_cons (l : Str) (ls : List Str) :
    joinLines (l :: ls) = l ++ '\n' :: joinLines ls := by
  unfold joinLines
  simp

theorem joinLines_getlineLines (N : Nat) : ∀ s : Str, s.length ≤ N →
    (s = [] ∨ s.getLast? = some '\n') → joinLines (getlineLines s) = s := by
  induction N with
  | zero =>
    intro s hlen _
    have h0 : s = [] := List.eq_nil_of_length_eq_zero (by omega)
    subst h0
    rfl
  | succ n ih =>
    intro s hlen hend
    rcases hend with rfl | hnl
    · rfl
    · have hs : s ≠ [] := by
        intro h0
        rw [h0] at hnl
        cases hnl
      have hmem : '\n' ∈ s := by
        obtain ⟨hne, heq⟩ := List.mem_getLast?_eq_getLast (x := '\n') (l := s)
          (by rw [Option.mem_def]; exact hnl)
        rw [heq]
        exact List.getLast_mem hne
      obtain ⟨pre, post, rfl, hpre⟩ := exists_split_first '\n' s hmem
      rw [getlineLines_cons _ _ hpre, joinLines_cons]
      have hlen2 : post.length ≤ n := by
        rw [List.length_append, List.length_cons] at hlen
        omega
      have hend2 : post = [] ∨ post.getLast? = some '\n' := by
        by_cases hp : post = []
        · exact Or.inl hp
        · refine Or.inr ?_
          rw [getLast?_append_right _ _ (by simp),
              show ('\n' :: post) = ['\n'] ++ post from rfl,
              getLast?_append_right _ _ hp] at hnl
          exact hnl
      rw [ih post hlen2 hend2]

/-! ### Commit line-walk lemmas -/

theorem intToDec_no_nl (i : Int) : ∀ ch ∈ intToDec i, ch ≠ '\n' := by
  unfold intToDec
  by_cases h : i < 0
  · rw [if_pos h]
    intro ch hch
    rcases List.mem_cons.mp hch with h1 | h1
    · rw [h1]; decide
    · exact (isDigitCh_ne (natToDec_all_digit _ _ h1)).2.2
  · rw [if_neg h]
    intro ch hch
    exact (isDigitCh_ne (natToDec_all_digit _ _ hch)).2.2

theorem parseCommitLines_cons_false (hash line : Str) (rest : List Str)
    (acc : Str) (c : CommitRec) :
    parseCommitLines hash (line :: rest) false acc c =
      if line = [] then parseCommitLines hash rest true acc c
      else
        match applyHeaderLine hash c line with
        | Except.error e => Except.error e
        | Except.ok c2 => parseCommitLines hash rest false acc c2 := rfl

theorem parseCommitLines_msg (hash : Str) (lines : List Str) :
    ∀ (acc : Str) (c : CommitRec),
    parseCommitLines hash lines true acc c =
      Except.ok { c with message := acc ++ joinLines lines } := by
  induction lines with
  | nil =>
    intro acc c
    have e : parseCommitLines hash [] true acc c =
        Except.ok { c with message := acc } := rfl
    rw [e, joinLines_nil, List.append_nil]
  | cons l ls ih =>
    intro acc c
    have e : parseCommitLines hash (l :: ls) true acc c =
        parseCommitLines hash ls true (acc ++ l ++ ['\n']) c := rfl
    rw [e, ih]
    have hmsg : acc ++ l ++ ['\n'] ++ joinLines ls = acc ++ joinLines (l :: ls) := by
      rw [joinLines_cons]
      simp [List.append_assoc]
    rw [hmsg]

theorem parseCommitLines_header_step (hash line : Str) (rest : List Str)
    (acc : Str) (c c' : CommitRec) (hne : line ≠ [])
    (ha : applyHeaderLine hash c line = Except.ok c') :
    parseCommitLines hash (line :: rest) false acc c =
      parseCommitLines hash rest false acc c' := by
  rw [parseCommitLines_cons_false, if_neg hne, ha]

theorem parseCommitLines_blank (hash : Str) (rest : List Str) (acc : Str)
    (c : CommitRec) :
    parseCommitLines hash ([] :: rest) false acc c =
      parseCommitLines hash rest true acc c := by
  rw [parseCommitLines_cons_false, if_pos rfl]

theorem parseCommitLines_parents (hash : Str) (ps : List Str)
    (hps : ∀ p ∈ ps, hashOkB p = true) :
    ∀ (rest : List Str) (acc : Str) (c : CommitRec),
    parseCommitLines hash (ps.map (fun p => "parent ".toList ++ p) ++ rest)
        false acc c =
      parseCommitLines hash rest false acc
        { c with parentHashes := c.parentHashes ++ ps } := by
  induction ps with
  | nil =>
    intro rest acc c
    simp only [List.map_nil, List.nil_append]
    have he : ({ c with parentHashes := c.parentHashes ++ [] } : CommitRec) = c := by
      cases c
      simp
    rw [he]
  | cons p ps ih =>
    intro rest acc c
    have hp := hashOkB_spec (hps p (List.mem_cons_self _ _))
    have hl := hp.1
    have htv : trimWs p = p :=
      trimWs_eq_self p fun ch hc => isXdigitCh_not_ht (hp.2 ch hc)
    have happ : applyHeaderLine hash c ("parent ".toList ++ p) =
        Except.ok { c with parentHashes := c.parentHashes ++ [p] } := by
      rw [applyHeaderLine_parent, htv]
      unfold SHA1_HEX_LENGTH
      rw [if_pos (by omega)]
      rw [show (40 : Nat) = p.length from hl.symm, List.take_length]
    rw [List.map_cons, List.cons_append,
        parseCommitLines_header_step _ _ _ _ _ _ (by simp) happ,
        ih (fun q hq => hps q (List.mem_cons_of_mem _ hq))]
    have hrec : ({ { c with parentHashes := c.parentHashes ++ [p] } with
        parentHashes := ({ c with parentHashes := c.parentHashes ++ [p] } :
          CommitRec).parentHashes ++ ps } : CommitRec) =
        { c with parentHashes := c.parentHashes ++ p :: ps } := by
      cases c
      simp
    rw [hrec]

theorem getlineLines_parents (ps : List Str)
    (hps : ∀ p ∈ ps, ∀ ch ∈ p, isXdigitCh ch = true) (tail : Str) :
    getlineLines ((ps.map (fun p => "parent ".toList ++ p ++ ['\n'])).flatten ++ tail) =
      ps.map (fun p => "parent ".toList ++ p) ++ getlineLines tail := by
  induction ps with
  | nil => simp
  | cons p ps ih =>
    have hnl : '\n' ∉ "parent ".toList ++ p := by
      intro hm
      rcases List.mem_append.mp hm with h1 | h1
      · revert h1; decide
      · exact isXdigitCh_ne_nl (hps p (List.mem_cons_self _ _) _ h1) rfl
    have hshape :
        ((("parent ".toList ++ p ++ ['\n']) ::
            ps.map (fun p => "parent ".toList ++ p ++ ['\n'])).flatten ++ tail) =
        ("parent ".toList ++ p) ++ '\n' ::
          ((ps.map (fun p => "parent ".toList ++ p ++ ['\n'])).flatten ++ tail) := by
      simp [List.append_assoc]
    rw [List.map_cons, hshape, getlineLines_cons _ _ hnl,
        ih fun q hq => hps q (List.mem_cons_of_mem _ hq)]
    rfl

theorem nl_not_mem_personLine (pre name email : Str) (ts : Int) (tz : Str)
    (hpre : '\n' ∉ pre)
    (hn : ∀ ch ∈ name, ch ≠ '\n') (he : ∀ ch ∈ email, ch ≠ '\n')
    (htz : ∀ ch ∈ tz, isSpaceCh ch = false) :
    '\n' ∉ pre ++ personStrOf name email ts tz := by
  intro hm
  rcases List.mem_append.mp hm with h | h
  · exact hpre h
  · unfold personStrOf at h
    rcases List.mem_append.mp h with h | h
    · rcases List.mem_append.mp h with h | h
      · rcases List.mem_append.mp h with h | h
        · rcases List.mem_append.mp h with h | h
          · rcases List.mem_append.mp h with h | h
            · exact hn _ h rfl
            · revert h; decide
          · exact he _ h rfl
        · revert h; decide
      · exact intToDec_no_nl _ _ h rfl
    · rcases List.mem_cons.mp h with h | h
      · exact absurd h (by decide)
      · exact absurd (htz _ h) (by decide)

/-! ### C4: commit decode/encode round-trip -/

theorem parseCommitContent_encode (hash : Str) (r : CommitRec)
    (hwf : wfRec r = true) :
    parseCommitContent hash (encodeCommit r) = Except.ok r := by
  unfold wfRec at hwf
  simp only [Bool.and_eq_true] at hwf
  obtain ⟨⟨⟨⟨⟨⟨⟨htr, hpar⟩, hap⟩, hat⟩, hcp⟩, hct⟩, hmne⟩, hmnl⟩ := hwf
  have htrh := hashOkB_spec htr
  have hparh : ∀ p ∈ r.parentHashes, hashOkB p = true := List.all_eq_true.mp hpar
  unfold personOkB at hap hcp
  simp only [Bool.and_eq_true] at hap hcp
  obtain ⟨⟨⟨⟨⟨hapn, hape⟩, haptznn⟩, haptzs⟩, hapnl⟩, hapel⟩ := hap
  obtain ⟨⟨⟨⟨⟨hcpn, hcpe⟩, hcptznn⟩, hcptzs⟩, hcpnl⟩, hcpel⟩ := hcp
  unfold tsOkB at hat hct
  simp only [Bool.and_eq_true, decide_eq_true_eq] at hat hct
  have hname_a : ∀ ch ∈ r.authorName, ch ≠ '<' ∧ ch ≠ '>' := by
    intro ch hch
    have h1 := List.all_eq_true.mp hapn ch hch
    simp only [Bool.and_eq_true, decide_eq_true_eq] at h1
    exact ⟨h1.1.1, h1.1.2⟩
  have hname_a_nl : ∀ ch ∈ r.authorName, ch ≠ '\n' := by
    intro ch hch
    have h1 := List.all_eq_true.mp hapn ch hch
    simp only [Bool.and_eq_true, decide_eq_true_eq] at h1
    exact h1.2
  have hemail_a : ∀ ch ∈ r.authorEmail, ch ≠ '>' := by
    intro ch hch
    have h1 := List.all_eq_true.mp hape ch hch
    simp only [Bool.and_eq_true, decide_eq_true_eq] at h1
    exact h1.1
  have hemail_a_nl : ∀ ch ∈ r.authorEmail, ch ≠ '\n' := by
    intro ch hch
    have h1 := List.all_eq_true.mp hape ch hch
    simp only [Bool.and_eq_true, decide_eq_true_eq] at h1
    exact h1.2
  have htz_a : ∀ ch ∈ r.authorTimezone, isSpaceCh ch = false := by
    intro ch hch
    have h1 := List.all_eq_true.mp haptzs ch hch
    cases hb : isSpaceCh ch
    · rfl
    · rw [hb] at h1; cases h1
  have hname_c : ∀ ch ∈ r.committerName, ch ≠ '<' ∧ ch ≠ '>' := by
    intro ch hch
    have h1 := List.all_eq_true.mp hcpn ch hch
    simp only [Bool.and_eq_true, decide_eq_true_eq] at h1
    exact ⟨h1.1.1, h1.1.2⟩
  have hname_c_nl : ∀ ch ∈ r.committerName, ch ≠ '\n' := by
    intro ch hch
    have h1 := List.all_eq_true.mp hcpn ch hch
    simp only [Bool.and_eq_true, decide_eq_true_eq] at h1
    exact h1.2
  have hemail_c : ∀ ch ∈ r.committerEmail, ch ≠ '>' := by
    intro ch hch
    have h1 := List.all_eq_true.mp hcpe ch hch
    simp only [Bool.and_eq_true, decide_eq_true_eq] at h1
    exact h1.1
  have hemail_c_nl : ∀ ch ∈ r.committerEmail, ch ≠ '\n' := by
    intro ch hch
    have h1 := List.all_eq_true.mp hcpe ch hch
    simp only [Bool.and_eq_true, decide_eq_true_eq] at h1
    exact h1.2
  have htz_c : ∀ ch ∈ r.committerTimezone, isSpaceCh ch = false := by
    intro ch hch
    have h1 := List.all_eq_true.mp hcptzs ch hch
    cases hb : isSpaceCh ch
    · rfl
    · rw [hb] at h1; cases h1
  have hppa : parsePerson (personStrOf r.authorName r.authorEmail
      r.authorTimestamp r.authorTimezone) =
      Except.ok (some (r.authorName, r.authorEmail, r.authorTimestamp,
        r.authorTimezone)) :=
    parsePerson_encode _ _ _ _ hname_a hemail_a
      (of_decide_eq_true hapnl) (of_decide_eq_true hapel)
      (of_decide_eq_true haptznn) htz_a hat.1 hat.2
  have hppc : parsePerson (personStrOf r.committerName r.committerEmail
      r.committerTimestamp r.committerTimezone) =
      Except.ok (some (r.committerName, r.committerEmail, r.committerTimestamp,
        r.committerTimezone)) :=
    parsePerson_encode _ _ _ _ hname_c hemail_c
      (of_decide_eq_true hcpnl) (of_decide_eq_true hcpel)
      (of_decide_eq_true hcptznn) htz_c hct.1 hct.2
  have hnl_tree : '\n' ∉ "tree ".toList ++ r.treeHash := by
    intro hm
    rcases List.mem_append.mp hm with h1 | h1
    · revert h1; decide
    · exact isXdigitCh_ne_nl (htrh.2 _ h1) rfl
  have hnl_author : '\n' ∉ "author ".toList ++ personStrOf r.authorName
      r.authorEmail r.authorTimestamp r.authorTimezone :=
    nl_not_mem_personLine _ _ _ _ _ (by decide) hname_a_nl hemail_a_nl htz_a
  have hnl_committer : '\n' ∉ "committer ".toList ++ personStrOf r.committerName
      r.committerEmail r.committerTimestamp r.committerTimezone :=
    nl_not_mem_personLine _ _ _ _ _ (by decide) hname_c_nl hemail_c_nl htz_c
  have hpshex : ∀ p ∈ r.parentHashes, ∀ ch ∈ p, isXdigitCh ch = true :=
    fun p hp => (hashOkB_spec (hparh p hp)).2
  have happ_t : applyHeaderLine hash emptyCommitRec
      ("tree ".toList ++ r.treeHash) =
      Except.ok { emptyCommitRec with treeHash := r.treeHash } := by
    rw [applyHeaderLine_tree,
        trimWs_eq_self _ (fun ch hc => isXdigitCh_not_ht (htrh.2 ch hc))]
    unfold SHA1_HEX_LENGTH
    have hl := htrh.1
    rw [if_pos (by omega)]
    rw [show (40 : Nat) = r.treeHash.length from hl.symm, List.take_length]
  have h0 : encodeCommit r =
      ("tree ".toList ++ r.treeHash) ++ '\n' ::
      ((r.parentHashes.map (fun p => "parent ".toList ++ p ++ ['\n'])).flatten ++
       (("author ".toList ++ personStrOf r.authorName r.authorEmail
          r.authorTimestamp r.authorTimezone) ++ '\n' ::
        (("committer ".toList ++ personStrOf r.committerName r.committerEmail
           r.committerTimestamp r.committerTimezone) ++ '\n' ::
         ([] ++ '\n' :: r.message)))) := by
    unfold encodeCommit personStrOf
    simp [List.append_assoc]
  have hlines : getlineLines (encodeCommit r) =
      ("tree ".toList ++ r.treeHash) ::
      ((r.parentHashes.map (fun p => "parent ".toList ++ p)) ++
       ("author ".toList ++ personStrOf r.authorName r.authorEmail
         r.authorTimestamp r.authorTimezone) ::
       ("committer ".toList ++ personStrOf r.committerName r.committerEmail
         r.committerTimestamp r.committerTimezone) ::
       [] :: getlineLines r.message) := by
    rw [h0, getlineLines_cons _ _ hnl_tree, getlineLines_parents _ hpshex,
        getlineLines_cons _ _ hnl_author, getlineLines_cons _ _ hnl_committer,
        getlineLines_cons [] _ (by simp)]
  unfold parseCommitContent
  rw [hlines,
      parseCommitLines_header_step _ _ _ _ _ _ (by simp) happ_t,
      parseCommitLines_parents _ _ hparh,
      parseCommitLines_header_step _ _ _ _ _ _ (by simp)
        (applyHeaderLine_author _ _ _ _ _ _ _ hppa),
      parseCommitLines_header_step _ _ _ _ _ _ (by simp)
        (applyHeaderLine_committer _ _ _ _ _ _ _ hppc),
      parseCommitLines_blank, parseCommitLines_msg, List.nil_append,
      joinLines_getlineLines r.message.length r.message le_rfl
        (Or.inr (of_decide_eq_true hmnl))]
  cases r
  simp [emptyCommitRec]

/-- C4: for every well-formed commit byte sequence (the encoding of a
well-formed record, including multi-parent records and multi-paragraph
messages), decoding it with the readCommit body parser and re-encoding
the result reproduces the original bytes exactly: the message is kept
verbatim with its trailing newline, and the parent list keeps its order. -/
theorem commit_bytes_roundtrip (b : Str)
    (h : ∃ r, wfRec r = true ∧ encodeCommit r = b) :
    ∃ r', parseCommitContent [] b = Except.ok r' ∧ encodeCommit r' = b := by
  obtain ⟨r, hwf, henc⟩ := h
  refine ⟨r, ?_, henc⟩
  rw [← henc]
  exact parseCommitContent_encode [] r hwf

/-- C4 witness: a concrete commit with two parents and a three-paragraph
message containing embedded blank lines round-trips. -/
theorem commit_bytes_roundtrip_witness :
    ∃ r', parseCommitContent [] (encodeCommit exCommitRec) = Except.ok r' ∧
          encodeCommit r' = encodeCommit exCommitRec :=
  commit_bytes_roundtrip (encodeCommit exCommitRec)
    ⟨exCommitRec, by decide, rfl⟩

/-! ### Name-comparator lemmas -/

theorem strLtB_nil_right (s : Str) : strLtB s [] = false := by
  cases s <;> rfl

theorem strLtB_cons_cons (a : Char) (as : Str) (b : Char) (bs : Str) :
    strLtB (a :: as) (b :: bs) =
      if a.toNat < b.toNat then true
      else if b.toNat < a.toNat then false
      else strLtB as bs := rfl

theorem strLtB_asymm : ∀ (a b : Str), strLtB a b = true → strLtB b a = false := by
  intro a
  induction a with
  | nil =>
    intro b h
    cases b with
    | nil => cases h
    | cons y ys => exact strLtB_nil_right _
  | cons x xs ih =>
    intro b h
    cases b with
    | nil => rw [strLtB_nil_right] at h; cases h
    | cons y ys =>
      rw [strLtB_cons_cons] at h
      rw [strLtB_cons_cons]
      by_cases h1 : x.toNat < y.toNat
      · rw [if_neg (by omega), if_pos h1]
      · rw [if_neg h1] at h
        by_cases h2 : y.toNat < x.toNat
        · rw [if_pos h2] at h; cases h
        · rw [if_neg h2] at h
          rw [if_neg h2, if_neg h1]
          exact ih ys h

theorem strLtB_conn : ∀ (a b : Str), strLtB a b = false → strLtB b a = false →
    a = b := by
  intro a
  induction a with
  | nil =>
    intro b h1 _
    cases b with
    | nil => rfl
    | cons y ys => cases h1
  | cons x xs ih =>
    intro b h1 h2
    cases b with
    | nil => cases h2
    | cons y ys =>
      rw [strLtB_cons_cons] at h1 h2
      by_cases hx : x.toNat < y.toNat
      · rw [if_pos hx] at h1; cases h1
      · by_cases hy : y.toNat < x.toNat
        · rw [if_pos hy] at h2; cases h2
        · rw [if_neg hx, if_neg hy] at h1
          rw [if_neg hy, if_neg hx] at h2
          have hts : x.toNat = y.toNat := by omega
          have hc : x = y := Char.eq_of_val_eq (UInt32.toNat.inj hts)
          rw [hc, ih ys h1 h2]

/-- The order the sorted child list satisfies: no later element compares
strictly below an earlier one. -/
def nameOrd (a b : TreeEntry) : Prop := strLtB b.name a.name = false

theorem insertByName_perm (e : TreeEntry) (l : List TreeEntry) :
    List.Perm (insertByName e l) (e :: l) := by
  induction l with
  | nil => exact List.Perm.refl _
  | cons x xs ih =>
    unfold insertByName
    by_cases h : strLtB e.name x.name = true
    · rw [if_pos h]
    · rw [if_neg h]
      exact (ih.cons x).trans (List.Perm.swap e x xs)

theorem sortByName_perm (l : List TreeEntry) : List.Perm (sortByName l) l := by
  induction l with
  | nil => exact List.Perm.refl _
  | cons x xs ih =>
    exact (insertByName_perm x (sortByName xs)).trans (ih.cons x)

theorem strLtB_trans : ∀ (a b c : Str), strLtB a b = true → strLtB b c = true →
    strLtB a c = true := by
  intro a
  induction a with
  | nil =>
    intro b c h1 h2
    cases b with
    | nil => cases h1
    | cons y ys =>
      cases c with
      | nil => rw [strLtB_nil_right] at h2; cases h2
      | cons z zs => rfl
  | cons x xs ih =>
    intro b c h1 h2
    cases b with
    | nil => rw [strLtB_nil_right] at h1; cases h1
    | cons y ys =>
      cases c with
      | nil => rw [strLtB_nil_right] at h2; cases h2
      | cons z zs =>
        rw [strLtB_cons_cons] at h1 h2 ⊢
        by_cases hxy : x.toNat < y.toNat
        · by_cases hyz : y.toNat < z.toNat
          · rw [if_pos (by omega)]
          · rw [if_neg hyz] at h2
            by_cases hzy : z.toNat < y.toNat
            · rw [if_pos hzy] at h2; cases h2
            · rw [if_pos (by omega)]
        · rw [if_neg hxy] at h1
          by_cases hyx : y.toNat < x.toNat
          · rw [if_pos hyx] at h1; cases h1
          · rw [if_neg hyx] at h1
            by_cases hyz : y.toNat < z.toNat
            · rw [if_pos (by omega)]
            · rw [if_neg hyz] at h2
              by_cases hzy : z.toNat < y.toNat
              · rw [if_pos hzy] at h2; cases h2
              · rw [if_neg hzy] at h2
                rw [if_neg (by omega), if_neg (by omega)]
                exact ih ys zs h1 h2

theorem insertByName_sorted (e : TreeEntry) (l : List TreeEntry)
    (hl : l.Pairwise nameOrd) : (insertByName e l).Pairwise nameOrd := by
  induction l with
  | nil => simp [insertByName, List.pairwise_cons]
  | cons x xs ih =>
    unfold insertByName
    by_cases h : strLtB e.name x.name = true
    · rw [if_pos h]
      refine List.pairwise_cons.mpr ⟨?_, hl⟩
      intro y hy
      rcases List.mem_cons.mp hy with h1 | h1
      · rw [h1]
        exact strLtB_asymm _ _ h
      · have hxy : nameOrd x y := (List.pairwise_cons.mp hl).1 y h1
        unfold nameOrd at *
        cases hc : strLtB y.name e.name
        · rfl
        · have := strLtB_trans _ _ _ hc h
          rw [this] at hxy
          cases hxy
    · rw [if_neg h]
      refine List.pairwise_cons.mpr ⟨?_, ih (List.pairwise_cons.mp hl).2⟩
      intro y hy
      have hy2 := (insertByName_perm e xs).mem_iff.mp hy
      rcases List.mem_cons.mp hy2 with h1 | h1
      · rw [h1]
        unfold nameOrd
        cases hb : strLtB e.name x.name
        · rfl
        · exact absurd hb h
      · exact (List.pairwise_cons.mp hl).1 y h1

theorem sortByName_sorted (l : List TreeEntry) :
    (sortByName l).Pairwise nameOrd := by
  induction l with
  | nil => constructor
  | cons x xs ih => exact insertByName_sorted x (sortByName xs) ih

theorem sorted_perm_nodup_eq : ∀ (l₁ l₂ : List TreeEntry),
    List.Perm l₁ l₂ → l₁.Pairwise nameOrd → l₂.Pairwise nameOrd →
    (l₁.map TreeEntry.name).Nodup → l₁ = l₂ := by
  intro l₁
  induction l₁ with
  | nil =>
    intro l₂ hp _ _ _
    exact (hp.nil_eq).symm ▸ rfl
  | cons a t₁ ih =>
    intro l₂ hp hs₁ hs₂ hnd
    cases l₂ with
    | nil => cases hp.symm.nil_eq
    | cons b t₂ =>
      by_cases hab : a = b
      · subst hab
        rw [ih t₂ (hp.cons_inv) (List.pairwise_cons.mp hs₁).2
            (List.pairwise_cons.mp hs₂).2 (by
              simp only [List.map_cons, List.nodup_cons] at hnd
              exact hnd.2)]
      · have hain : a ∈ b :: t₂ := hp.mem_iff.mp (List.mem_cons_self _ _)
        have hbin : b ∈ a :: t₁ := hp.mem_iff.mpr (List.mem_cons_self _ _)
        have hat2 : a ∈ t₂ := by
          rcases List.mem_cons.mp hain with h1 | h1
          · exact absurd h1 hab
          · exact h1
        have hbt1 : b ∈ t₁ := by
          rcases List.mem_cons.mp hbin with h1 | h1
          · exact absurd h1.symm hab
          · exact h1
        have h1 : nameOrd a b := (List.pairwise_cons.mp hs₁).1 b hbt1
        have h2 : nameOrd b a := (List.pairwise_cons.mp hs₂).1 a hat2
        have hname : b.name = a.name := strLtB_conn _ _ h1 h2
        exfalso
        simp only [List.map_cons, List.nodup_cons] at hnd
        exact hnd.1 (hname ▸ List.mem_map_of_mem TreeEntry.name hbt1)

/-! ### getDirectChildren loop characterization -/

theorem gdcGo_nil (f : Str → Option Str) (d : Str) (seen : List Str)
    (children : List TreeEntry) : gdcGo f d [] seen children = some children := rfl

theorem gdcGo_cons (f : Str → Option Str) (d path : Str) (entry : IndexEntry)
    (rest : Entries) (seen : List Str) (children : List TreeEntry) :
    gdcGo f d ((path, entry) :: rest) seen children =
      if d ≠ [] ∧ ¬((pfxOf d).isPrefixOf path) then gdcGo f d rest seen children
      else if '/' ∈ relPathOf d path then
        (if (relPathOf d path).takeWhile (fun c => c ≠ '/') ∈ seen then
          gdcGo f d rest seen children
        else
          match f (pfxOf d ++ (relPathOf d path).takeWhile (fun c => c ≠ '/')) with
          | none => none
          | some treeHash =>
            if treeHash = [] then
              gdcGo f d rest
                ((relPathOf d path).takeWhile (fun c => c ≠ '/') :: seen) children
            else
              gdcGo f d rest
                ((relPathOf d path).takeWhile (fun c => c ≠ '/') :: seen)
                (children ++ [⟨16384,
                  (relPathOf d path).takeWhile (fun c => c ≠ '/'), treeHash, true⟩]))
      else
        gdcGo f d rest seen
          (children ++ [⟨entry.mode, relPathOf d path, entry.hashHex, false⟩]) := rfl

theorem newSubdirs_nil (d : Str) (seen : List Str) :
    newSubdirs d [] seen = [] := rfl

theorem newSubdirs_cons (d : Str) (pe : Str × IndexEntry) (rest : Entries)
    (seen : List Str) :
    newSubdirs d (pe :: rest) seen =
      match subdirOf d pe with
      | none => newSubdirs d rest seen
      | some sd =>
        if sd ∈ seen then newSubdirs d rest seen
        else sd :: newSubdirs d rest (sd :: seen) := rfl

theorem newSubdirs_cons_none (d : Str) (pe : Str × IndexEntry) (rest : Entries)
    (seen : List Str) (h : subdirOf d pe = none) :
    newSubdirs d (pe :: rest) seen = newSubdirs d rest seen := by
  rw [newSubdirs_cons, h]

theorem newSubdirs_cons_seen (d : Str) (pe : Str × IndexEntry) (rest : Entries)
    (seen : List Str) (sd : Str) (h : subdirOf d pe = some sd) (hs : sd ∈ seen) :
    newSubdirs d (pe :: rest) seen = newSubdirs d rest seen := by
  rw [newSubdirs_cons, h]
  dsimp only
  rw [if_pos hs]

theorem newSubdirs_cons_new (d : Str) (pe : Str × IndexEntry) (rest : Entries)
    (seen : List Str) (sd : Str) (h : subdirOf d pe = some sd) (hs : sd ∉ seen) :
    newSubdirs d (pe :: rest) seen = sd :: newSubdirs d rest (sd :: seen) := by
  rw [newSubdirs_cons, h]
  dsimp only
  rw [if_neg hs]

theorem gdcGo_spec (f : Str → Option Str) (d : Str) :
    ∀ (rest : Entries) (seen : List Str) (children : List TreeEntry),
    (gdcGo f d rest seen children = none ↔
      ∃ n ∈ newSubdirs d rest seen, f (pfxOf d ++ n) = none) ∧
    (∀ l, gdcGo f d rest seen children = some l →
      List.Perm l (children ++ (rest.filterMap (fileOf d) ++
        (newSubdirs d rest seen).filterMap (dirChild f (pfxOf d))))) := by
  intro rest
  induction rest with
  | nil =>
    intro seen children
    constructor
    · rw [gdcGo_nil]
      simp [newSubdirs_nil]
    · intro l hl
      rw [gdcGo_nil] at hl
      injection hl with hl
      subst hl
      rw [newSubdirs_nil]
      simp
  | cons pe rest ih =>
    intro seen children
    obtain ⟨path, entry⟩ := pe
    rw [gdcGo_cons]
    by_cases hskip : d ≠ [] ∧ ¬((pfxOf d).isPrefixOf path)
    · rw [if_pos hskip]
      have hfo : fileOf d (path, entry) = none := by
        unfold fileOf
        rw [if_pos hskip]
      have hso : subdirOf d (path, entry) = none := by
        unfold subdirOf
        rw [if_pos hskip]
      rw [newSubdirs_cons_none _ _ _ _ hso, List.filterMap_cons_none hfo]
      exact ih seen children
    · rw [if_neg hskip]
      by_cases hsl : '/' ∈ relPathOf d path
      · rw [if_pos hsl]
        have hfo : fileOf d (path, entry) = none := by
          unfold fileOf
          rw [if_neg hskip, if_pos hsl]
        have hso : subdirOf d (path, entry) =
            some ((relPathOf d path).takeWhile (fun c => c ≠ '/')) := by
          unfold subdirOf
          rw [if_neg hskip, if_pos hsl]
        by_cases hseen : (relPathOf d path).takeWhile (fun c => c ≠ '/') ∈ seen
        · rw [if_pos hseen, newSubdirs_cons_seen _ _ _ _ _ hso hseen,
              List.filterMap_cons_none hfo]
          exact ih seen children
        · rw [if_neg hseen, newSubdirs_cons_new _ _ _ _ _ hso hseen,
              List.filterMap_cons_none hfo]
          cases hf : f (pfxOf d ++ (relPathOf d path).takeWhile (fun c => c ≠ '/')) with
          | none =>
            dsimp only
            constructor
            · constructor
              · intro _
                exact ⟨_, List.mem_cons_self _ _, hf⟩
              · intro _
                rfl
            · intro l hl
              cases hl
          | some th =>
            dsimp only
            have hdc : dirChild f (pfxOf d)
                ((relPathOf d path).takeWhile (fun c => c ≠ '/')) =
                if th = [] then none
                else some ⟨16384, (relPathOf d path).takeWhile (fun c => c ≠ '/'),
                  th, true⟩ := by
              unfold dirChild
              rw [hf]
            by_cases hth : th = []
            · rw [if_pos hth]
              rw [if_pos hth] at hdc
              rw [List.filterMap_cons_none hdc]
              constructor
              · constructor
                · intro hn
                  obtain ⟨n, hn1, hn2⟩ := ((ih _ children).1).mp hn
                  exact ⟨n, List.mem_cons_of_mem _ hn1, hn2⟩
                · intro hex
                  obtain ⟨n, hn1, hn2⟩ := hex
                  rcases List.mem_cons.mp hn1 with h1 | h1
                  · rw [h1] at hn2
                    rw [hn2] at hf
                    cases hf
                  · exact ((ih _ children).1).mpr ⟨n, h1, hn2⟩
              · exact (ih _ children).2
            · rw [if_neg hth]
              rw [if_neg hth] at hdc
              rw [List.filterMap_cons_some hdc]
              constructor
              · constructor
                · intro hn
                  obtain ⟨n, hn1, hn2⟩ := ((ih _ _).1).mp hn
                  exact ⟨n, List.mem_cons_of_mem _ hn1, hn2⟩
                · intro hex
                  obtain ⟨n, hn1, hn2⟩ := hex
                  rcases List.mem_cons.mp hn1 with h1 | h1
                  · rw [h1] at hn2
                    rw [hn2] at hf
                    cases hf
                  · exact ((ih _ _).1).mpr ⟨n, h1, hn2⟩
              · intro l hl
                have h1 := (ih _ _).2 l hl
                have he : (children ++ [(⟨16384,
                    (relPathOf d path).takeWhile (fun c => c ≠ '/'), th, true⟩ :
                      TreeEntry)]) ++ (rest.filterMap (fileOf d) ++
                    (newSubdirs d rest ((relPathOf d path).takeWhile
                      (fun c => c ≠ '/') :: seen)).filterMap
                      (dirChild f (pfxOf d))) =
                    children ++ ((⟨16384,
                      (relPathOf d path).takeWhile (fun c => c ≠ '/'), th, true⟩ :
                        TreeEntry) :: (rest.filterMap (fileOf d) ++
                      (newSubdirs d rest ((relPathOf d path).takeWhile
                        (fun c => c ≠ '/') :: seen)).filterMap
                        (dirChild f (pfxOf d)))) := by
                  simp [List.append_assoc]
                rw [he] at h1
                refine h1.trans ?_
                exact List.Perm.append_left children List.perm_middle.symm
      · rw [if_neg hsl]
        have hfo : fileOf d (path, entry) =
            some ⟨entry.mode, relPathOf d path, entry.hashHex, false⟩ := by
          unfold fileOf
          rw [if_neg hskip, if_neg hsl]
        have hso : subdirOf d (path, entry) = none := by
          unfold subdirOf
          rw [if_neg hskip, if_neg hsl]
        rw [newSubdirs_cons_none _ _ _ _ hso, List.filterMap_cons_some hfo]
        constructor
        · exact (ih seen _).1
        · intro l hl
          have h1 := (ih seen _).2 l hl
          have he : (children ++ [(⟨entry.mode, relPathOf d path,
              entry.hashHex, false⟩ : TreeEntry)]) ++
              (rest.filterMap (fileOf d) ++
                (newSubdirs d rest seen).filterMap (dirChild f (pfxOf d))) =
              children ++ ((⟨entry.mode, relPathOf d path,
                entry.hashHex, false⟩ : TreeEntry) :: rest.filterMap (fileOf d) ++
                (newSubdirs d rest seen).filterMap (dirChild f (pfxOf d))) := by
            simp [List.append_assoc]
          rw [he] at h1
          exact h1

/-! ### newSubdirs properties -/

theorem mem_newSubdirs (d : Str) : ∀ (rest : Entries) (seen : List Str) (n : Str),
    n ∈ newSubdirs d rest seen ↔
      (n ∉ seen ∧ ∃ pe ∈ rest, subdirOf d pe = some n) := by
  intro rest
  induction rest with
  | nil =>
    intro seen n
    rw [newSubdirs_nil]
    constructor
    · intro h
      cases h
    · rintro ⟨-, pe, hm, -⟩
      cases hm
  | cons pe rest ih =>
    intro seen n
    cases hso : subdirOf d pe with
    | none =>
      rw [newSubdirs_cons_none _ _ _ _ hso, ih]
      constructor
      · rintro ⟨h1, pe', hm, h3⟩
        exact ⟨h1, pe', List.mem_cons_of_mem _ hm, h3⟩
      · rintro ⟨h1, pe', hm, h3⟩
        rcases List.mem_cons.mp hm with rfl | hm'
        · rw [hso] at h3; cases h3
        · exact ⟨h1, pe', hm', h3⟩
    | some sd =>
      by_cases hs : sd ∈ seen
      · rw [newSubdirs_cons_seen _ _ _ _ _ hso hs, ih]
        constructor
        · rintro ⟨h1, pe', hm, h3⟩
          exact ⟨h1, pe', List.mem_cons_of_mem _ hm, h3⟩
        · rintro ⟨h1, pe', hm, h3⟩
          rcases List.mem_cons.mp hm with rfl | hm'
          · rw [hso] at h3
            injection h3 with h3
            subst h3
            exact absurd hs h1
          · exact ⟨h1, pe', hm', h3⟩
      · rw [newSubdirs_cons_new _ _ _ _ _ hso hs]
        rw [List.mem_cons, ih]
        constructor
        · rintro (rfl | ⟨h1, pe', hm, h3⟩)
          · exact ⟨hs, pe, List.mem_cons_self _ _, hso⟩
          · exact ⟨fun hc => h1 (List.mem_cons_of_mem _ hc), pe',
              List.mem_cons_of_mem _ hm, h3⟩
        · rintro ⟨h1, pe', hm, h3⟩
          rcases List.mem_cons.mp hm with rfl | hm'
          · rw [hso] at h3
            injection h3 with h3
            exact Or.inl h3.symm
          · by_cases hnsd : n = sd
            · exact Or.inl hnsd
            · refine Or.inr ⟨?_, pe', hm', h3⟩
              intro hc
              rcases List.mem_cons.mp hc with h4 | h4
              · exact hnsd h4
              · exact h1 h4

theorem nodup_newSubdirs (d : Str) : ∀ (rest : Entries) (seen : List Str),
    (newSubdirs d rest seen).Nodup ∧
      ∀ n ∈ newSubdirs d rest seen, n ∉ seen := by
  intro rest
  induction rest with
  | nil =>
    intro seen
    rw [newSubdirs_nil]
    exact ⟨List.nodup_nil, by intro n hn; cases hn⟩
  | cons pe rest ih =>
    intro seen
    cases hso : subdirOf d pe with
    | none =>
      rw [newSubdirs_cons_none _ _ _ _ hso]
      exact ih seen
    | some sd =>
      by_cases hs : sd ∈ seen
      · rw [newSubdirs_cons_seen _ _ _ _ _ hso hs]
        exact ih seen
      · rw [newSubdirs_cons_new _ _ _ _ _ hso hs]
        refine ⟨List.nodup_cons.mpr ⟨?_, (ih (sd :: seen)).1⟩, ?_⟩
        · intro hc
          exact (ih (sd :: seen)).2 sd hc (List.mem_cons_self _ _)
        · intro n hn
          rcases List.mem_cons.mp hn with rfl | hn'
          · exact hs
          · intro hc
            exact (ih (sd :: seen)).2 n hn' (List.mem_cons_of_mem _ hc)

theorem newSubdirs_perm (d : Str) (r1 r2 : Entries) (hp : List.Perm r1 r2)
    (seen : List Str) :
    List.Perm (newSubdirs d r1 seen) (newSubdirs d r2 seen) := by
  apply (List.perm_ext_iff_of_nodup (nodup_newSubdirs d r1 seen).1
    (nodup_newSubdirs d r2 seen).1).mpr
  intro n
  rw [mem_newSubdirs, mem_newSubdirs]
  constructor
  · rintro ⟨h1, pe, hm, h3⟩
    exact ⟨h1, pe, hp.mem_iff.mp hm, h3⟩
  · rintro ⟨h1, pe, hm, h3⟩
    exact ⟨h1, pe, hp.mem_iff.mpr hm, h3⟩

/-! ### Child-name distinctness -/

theorem relPath_reconstruct (d p : Str)
    (hns : ¬(d ≠ [] ∧ ¬((pfxOf d).isPrefixOf p))) :
    p = pfxOf d ++ relPathOf d p := by
  by_cases hd : d = []
  · subst hd
    simp [pfxOf, relPathOf]
  · have hpref : ((pfxOf d).isPrefixOf p) = true := by
      by_contra hc
      exact hns ⟨hd, fun hp => hc hp⟩
    obtain ⟨t, ht⟩ := List.isPrefixOf_iff_prefix.mp hpref
    rw [relPathOf, if_neg hd, ← ht, List.drop_left]

theorem fileOf_path (d : Str) (pe : Str × IndexEntry) (te : TreeEntry)
    (h : fileOf d pe = some te) : pe.1 = pfxOf d ++ te.name := by
  unfold fileOf at h
  by_cases hskip : d ≠ [] ∧ ¬((pfxOf d).isPrefixOf pe.1)
  · rw [if_pos hskip] at h
    cases h
  · rw [if_neg hskip] at h
    by_cases hsl : '/' ∈ relPathOf d pe.1
    · rw [if_pos hsl] at h
      cases h
    · rw [if_neg hsl] at h
      injection h with h
      subst h
      exact relPath_reconstruct d pe.1 hskip

theorem dropWhile_ne_eq_cons_of_mem (c : Char) : ∀ (s : Str), c ∈ s →
    ∃ t, s.dropWhile (fun x => x ≠ c) = c :: t := by
  intro s
  induction s with
  | nil => intro h; cases h
  | cons a rest ih =>
    intro h
    by_cases hac : a = c
    · subst hac
      refine ⟨rest, ?_⟩
      rw [List.dropWhile_cons]
      simp
    · have hcr : c ∈ rest := by
        rcases List.mem_cons.mp h with h1 | h1
        · exact absurd h1.symm hac
        · exact h1
      obtain ⟨t, ht⟩ := ih hcr
      refine ⟨t, ?_⟩
      rw [List.dropWhile_cons]
      simp only [show (decide (a ≠ c)) = true by simp [hac], if_true]
      exact ht

theorem subdirOf_path (d : Str) (pe : Str × IndexEntry) (n : Str)
    (h : subdirOf d pe = some n) :
    ∃ t, pe.1 = (pfxOf d ++ n) ++ '/' :: t := by
  unfold subdirOf at h
  by_cases hskip : d ≠ [] ∧ ¬((pfxOf d).isPrefixOf pe.1)
  · rw [if_pos hskip] at h
    cases h
  · rw [if_neg hskip] at h
    by_cases hsl : '/' ∈ relPathOf d pe.1
    · rw [if_pos hsl] at h
      injection h with h
      subst h
      obtain ⟨t, ht⟩ := dropWhile_ne_eq_cons_of_mem '/' (relPathOf d pe.1) hsl
      refine ⟨t, ?_⟩
      have hrec := relPath_reconstruct d pe.1 hskip
      have hsplit : relPathOf d pe.1 =
          (relPathOf d pe.1).takeWhile (fun x => x ≠ '/') ++ '/' :: t := by
        conv_lhs => rw [← List.takeWhile_append_dropWhile
          (p := fun x => x ≠ '/') (l := relPathOf d pe.1)]
        rw [ht]
      calc pe.1 = pfxOf d ++ relPathOf d pe.1 := hrec
        _ = pfxOf d ++
            ((relPathOf d pe.1).takeWhile (fun x => x ≠ '/') ++ '/' :: t) := by
              conv_lhs => rw [hsplit]
        _ = (pfxOf d ++ (relPathOf d pe.1).takeWhile (fun x => x ≠ '/')) ++
            '/' :: t := by
              rw [List.append_assoc]
    · rw [if_neg hsl] at h
      cases h

theorem dirChild_name (f : Str → Option Str) (pfx n : Str) (te : TreeEntry)
    (h : dirChild f pfx n = some te) : te.name = n := by
  unfold dirChild at h
  cases hf : f (pfx ++ n) with
  | none => rw [hf] at h; cases h
  | some th =>
    rw [hf] at h
    dsimp only at h
    by_cases hth : th = []
    · rw [if_pos hth] at h; cases h
    · rw [if_neg hth] at h
      injection h with h
      subst h
      rfl

theorem nodup_fileNames (d : Str) : ∀ (e : Entries), (e.map Prod.fst).Nodup →
    ((e.filterMap (fileOf d)).map TreeEntry.name).Nodup := by
  intro e
  induction e with
  | nil => intro _; simp
  | cons pe rest ih =>
    intro hnd
    simp only [List.map_cons, List.nodup_cons] at hnd
    cases hfo : fileOf d pe with
    | none =>
      rw [List.filterMap_cons_none hfo]
      exact ih hnd.2
    | some te =>
      rw [List.filterMap_cons_some hfo]
      simp only [List.map_cons, List.nodup_cons]
      refine ⟨?_, ih hnd.2⟩
      intro hc
      obtain ⟨te', hte', hname⟩ := List.mem_map.mp hc
      obtain ⟨pe', hpe', hfo'⟩ := List.mem_filterMap.mp hte'
      have h1 := fileOf_path d pe te hfo
      have h2 := fileOf_path d pe' te' hfo'
      apply hnd.1
      have hpp : pe.1 = pe'.1 := by rw [h1, h2, hname]
      rw [hpp]
      exact List.mem_map_of_mem Prod.fst hpe'

theorem nodup_dirNames (f : Str → Option Str) (pfx : Str) :
    ∀ (ns : List Str), ns.Nodup →
    ((ns.filterMap (dirChild f pfx)).map TreeEntry.name).Nodup := by
  intro ns
  induction ns with
  | nil => intro _; simp
  | cons n rest ih =>
    intro hnd
    rw [List.nodup_cons] at hnd
    cases hdc : dirChild f pfx n with
    | none =>
      rw [List.filterMap_cons_none hdc]
      exact ih hnd.2
    | some te =>
      rw [List.filterMap_cons_some hdc]
      simp only [List.map_cons, List.nodup_cons]
      refine ⟨?_, ih hnd.2⟩
      intro hc
      obtain ⟨te', hte', hname⟩ := List.mem_map.mp hc
      obtain ⟨n', hn', hdc'⟩ := List.mem_filterMap.mp hte'
      apply hnd.1
      rw [show n = n' from by
        rw [← dirChild_name f pfx n te hdc, ← dirChild_name f pfx n' te' hdc',
            hname]]
      exact hn'

theorem noDirPrefix_spec (keys : List Str) (hdp : NoDirPrefixB keys = true) :
    ∀ p ∈ keys, ∀ q ∈ keys, ((p ++ ['/']).isPrefixOf q) = false := by
  intro p hp q hq
  unfold NoDirPrefixB at hdp
  have h1 := List.all_eq_true.mp hdp p hp
  have h2 := List.all_eq_true.mp h1 q hq
  cases hb : ((p ++ ['/']).isPrefixOf q)
  · rfl
  · rw [hb] at h2
    cases h2

theorem nodup_childrenNames (f : Str → Option Str) (d : Str) (e : Entries)
    (hnd : (e.map Prod.fst).Nodup) (hdp : NoDirPrefixB (e.map Prod.fst) = true) :
    ((e.filterMap (fileOf d) ++
      (newSubdirs d e []).filterMap (dirChild f (pfxOf d))).map
        TreeEntry.name).Nodup := by
  rw [List.map_append]
  refine List.Nodup.append (nodup_fileNames d e hnd)
    (nodup_dirNames f (pfxOf d) _ (nodup_newSubdirs d e []).1) ?_
  intro nm hn1 hn2
  obtain ⟨te, hte, hname⟩ := List.mem_map.mp hn1
  obtain ⟨pe, hpe, hfo⟩ := List.mem_filterMap.mp hte
  obtain ⟨te', hte', hname'⟩ := List.mem_map.mp hn2
  obtain ⟨n', hn', hdc'⟩ := List.mem_filterMap.mp hte'
  have hdn := dirChild_name _ _ _ _ hdc'
  have hnn : n' = nm := by rw [← hname', hdn]
  subst hnn
  obtain ⟨_, pe', hpe', hso'⟩ := (mem_newSubdirs d e [] n').mp hn'
  obtain ⟨t, ht⟩ := subdirOf_path d pe' n' hso'
  have h1 : pe.1 = pfxOf d ++ n' := by
    rw [fileOf_path d pe te hfo, hname]
  have hfalse := noDirPrefix_spec _ hdp pe.1 (List.mem_map_of_mem Prod.fst hpe)
    pe'.1 (List.mem_map_of_mem Prod.fst hpe')
  rw [ht, h1, show ((pfxOf d ++ n') ++ '/' :: t) =
      ((pfxOf d ++ n') ++ ['/']) ++ t from by simp,
      isPrefixOf_append] at hfalse
  cases hfalse

/-! ### Order-independence of buildFromIndex -/

theorem buildTreeF_succ (H : HasherM) (fuel : Nat) (d : Str) (entries : Entries) :
    buildTreeF H (fuel + 1) d entries =
      match gdcGo (fun sub => buildTreeF H fuel sub entries) d entries [] [] with
      | none => none
      | some children =>
        if children = [] then some []
        else some (writeTreeId H (serializeTreeEntries (sortByName children))) :=
  rfl

theorem buildTreeF_perm (H : HasherM) (e₁ e₂ : Entries)
    (hperm : List.Perm e₁ e₂) (hnd : (e₁.map Prod.fst).Nodup)
    (hdp : NoDirPrefixB (e₁.map Prod.fst) = true) :
    ∀ (fuel : Nat) (d : Str), buildTreeF H fuel d e₁ = buildTreeF H fuel d e₂ := by
  intro fuel
  induction fuel with
  | zero => intro d; rfl
  | succ n ih =>
    intro d
    rw [buildTreeF_succ, buildTreeF_succ]
    have hf : (fun sub => buildTreeF H n sub e₂) =
        (fun sub => buildTreeF H n sub e₁) :=
      funext fun sub => (ih sub).symm
    rw [hf]
    have hspec1 := gdcGo_spec (fun sub => buildTreeF H n sub e₁) d e₁ [] []
    have hspec2 := gdcGo_spec (fun sub => buildTreeF H n sub e₁) d e₂ [] []
    have hnsperm := newSubdirs_perm d e₁ e₂ hperm []
    cases hg1 : gdcGo (fun sub => buildTreeF H n sub e₁) d e₁ [] [] with
    | none =>
      obtain ⟨nm, hn1, hn2⟩ := hspec1.1.mp hg1
      have hg2 : gdcGo (fun sub => buildTreeF H n sub e₁) d e₂ [] [] = none :=
        hspec2.1.mpr ⟨nm, hnsperm.mem_iff.mp hn1, hn2⟩
      rw [hg2]
    | some l₁ =>
      cases hg2 : gdcGo (fun sub => buildTreeF H n sub e₁) d e₂ [] [] with
      | none =>
        exfalso
        obtain ⟨nm, hn1, hn2⟩ := hspec2.1.mp hg2
        have hcontra : gdcGo (fun sub => buildTreeF H n sub e₁) d e₁ [] [] =
            none := hspec1.1.mpr ⟨nm, hnsperm.mem_iff.mpr hn1, hn2⟩
        rw [hg1] at hcontra
        cases hcontra
      | some l₂ =>
        dsimp only
        have hp1 := hspec1.2 l₁ hg1
        have hp2 := hspec2.2 l₂ hg2
        simp only [List.nil_append] at hp1 hp2
        have hFperm : List.Perm (e₁.filterMap (fileOf d))
            (e₂.filterMap (fileOf d)) := hperm.filterMap _
        have hDperm := hnsperm.filterMap
          (dirChild (fun sub => buildTreeF H n sub e₁) (pfxOf d))
        have hl12 : List.Perm l₁ l₂ :=
          hp1.trans ((hFperm.append hDperm).trans hp2.symm)
        by_cases hnil1 : l₁ = []
        · have hnil2 : l₂ = [] := by
            subst hnil1
            exact hl12.nil_eq.symm
          rw [if_pos hnil1, if_pos hnil2]
        · have hnil2 : l₂ ≠ [] := fun hc => hnil1 (List.Perm.eq_nil (hc ▸ hl12))
          rw [if_neg hnil1, if_neg hnil2]
          have hndnames := nodup_childrenNames
            (fun sub => buildTreeF H n sub e₁) d e₁ hnd hdp
          have hnd1 : (l₁.map TreeEntry.name).Nodup :=
            ((hp1.map TreeEntry.name).nodup_iff).mpr hndnames
          have hsorteq : sortByName l₁ = sortByName l₂ := by
            apply sorted_perm_nodup_eq
            · exact (sortByName_perm l₁).trans
                (hl12.trans (sortByName_perm l₂).symm)
            · exact sortByName_sorted l₁
            · exact sortByName_sorted l₂
            · exact (((sortByName_perm l₁).map TreeEntry.name).nodup_iff).mpr hnd1
          rw [hsorteq]

/-- C3: for any two staging indexes that are permutations of each other
(same path-to-entry mappings, distinct paths, no path a directory-prefix
of another), buildFromIndex produces the same root tree identifier:
entries at each directory level are sorted by name before the tree body
is serialized, so the result is order-independent. -/
theorem buildFromIndex_perm (H : HasherM) (e₁ e₂ : Entries)
    (hperm : List.Perm e₁ e₂)
    (hnd : (e₁.map Prod.fst).Nodup)
    (hdp : NoDirPrefixB (e₁.map Prod.fst) = true) :
    buildFromIndex H e₁ = buildFromIndex H e₂ := by
  unfold buildFromIndex
  by_cases h1 : e₁ = []
  · subst h1
    have h2 : e₂ = [] := hperm.nil_eq.symm
    subst h2
    rfl
  · have h2 : e₂ ≠ [] := fun hc => h1 (List.Perm.eq_nil (hc ▸ hperm))
    rw [if_neg h1, if_neg h2]
    have hfuel : fuelOf e₁ = fuelOf e₂ := by
      unfold fuelOf
      rw [(hperm.map (fun pe => pe.1.length)).sum_eq]
    rw [hfuel]
    exact buildTreeF_perm H e₁ e₂ hperm hnd hdp (fuelOf e₂) []

/-- Witness for C3 at a concrete pair of permuted three-entry indexes. -/
theorem buildFromIndex_perm_witness :
    List.Perm exEntriesA exEntriesB ∧
    (exEntriesA.map Prod.fst).Nodup ∧
    NoDirPrefixB (exEntriesA.map Prod.fst) = true ∧
    buildFromIndex H0 exEntriesA = buildFromIndex H0 exEntriesB :=
  ⟨by decide, by decide, by decide,
   buildFromIndex_perm H0 exEntriesA exEntriesB (by decide) (by decide)
     (by decide)⟩

end Gitter
